import Mathlib

/-!
Verification development for the mail-merge core of `app.py`
(class `MailMergeProcessor`).

The embedding models paragraph text as `List Char`, a record (one row of
the data file) as an association list from field names to string values,
and a document as the block tree that `python-docx` exposes to the code
under verification: body paragraphs and tables, table cells containing
paragraphs and (one level of) nested tables, and per-section header and
footer paragraph lists.  XML-level visual properties that no claim
mentions (cell shading, borders, column widths) are not modelled.

Python-specific facts baked into the model, each noted at its definition:
`re`'s `\w` on `str` is Unicode-aware; `run.clear()` empties a run's text
but leaves the run element in the paragraph; `0`, `None` and `""` are
falsy; `RGBColor` is a nonempty hex string, hence always truthy.
-/

namespace MailMerge

/-- One character of Python's `\w` class, as used by the token pattern
`\{\{(\w+)\}\}` in `replace_merge_fields_advanced`.  On a `str`, Python's
`\w` matches Unicode word characters, not only ASCII ones.  The model is
exact on ASCII (letters, digits, underscore) and on the Latin-1
Supplement / Latin Extended-A / Latin Extended-B letter ranges
U+00C0..U+024F (every code point there is a letter except the two
operators U+00D7 and U+00F7); word characters outside these ranges are
not used anywhere in this development. -/
def isWordChar (c : Char) : Bool :=
  c.isAlphanum || c == '_' ||
    (0xC0 ≤ c.toNat && c.toNat ≤ 0x24F && c.toNat ≠ 0xD7 && c.toNat ≠ 0xF7)

/-- Modelled from the spec's words, for comparison with the code's
scanner: an ASCII word character, "letters, digits, underscore". -/
def specAsciiWordChar (c : Char) : Bool :=
  c.isAlphanum || c == '_'

/-- Python slice `s[a:b]` of a character list. -/
def slice (s : List Char) (a b : Nat) : List Char :=
  (s.drop a).take (b - a)

/-- `pat` occurs at the head of `s`. -/
def leadsWith : List Char → List Char → Bool
  | [], _ => true
  | _ :: _, [] => false
  | p :: ps, c :: cs => p == c && leadsWith ps cs

/-- Python `pat in s` for strings: `pat` occurs contiguously in `s`. -/
def hasSub (pat : List Char) : List Char → Bool
  | [] => leadsWith pat []
  | c :: cs => leadsWith pat (c :: cs) || hasSub pat cs

/-- A merge-field token span, as produced by `re.finditer` in
`replace_merge_fields_advanced`: captured field name, `match.start()`
and `match.end()` (exclusive). -/
structure Span where
  name : List Char
  start : Nat
  stop : Nat
deriving DecidableEq, Repr

/-- Try to match the token pattern `{{` + `\w+` (greedy) + `}}` at the
head of `cs`; on success return the captured name and the rest of the
input after the token.  Because `}` is not a word character, the regex
engine's greedy match with backtracking succeeds at a position exactly
when the maximal word-character run after `{{` is nonempty and is
followed by `}}`, which is what this function tests. -/
def matchTok (cs : List Char) : Option (List Char × List Char) :=
  match cs with
  | '{' :: '{' :: rest =>
    match rest.takeWhile isWordChar, rest.dropWhile isWordChar with
    | [], _ => none
    | w0 :: ws, '}' :: '}' :: tail => some (w0 :: ws, tail)
    | _ :: _, _ => none
  | _ => none

/-- Scanner loop: `re.finditer(r'\{\{(\w+)\}\}', text)` starting at
absolute position `pos`, with explicit fuel (any fuel at least the
length of the remaining input gives the final answer, since every step
consumes at least one character). -/
def scanFrom : Nat → List Char → Nat → List Span
  | 0, _, _ => []
  | fuel + 1, cs, pos =>
    match matchTok cs with
    | some (w, tail) =>
      ⟨w, pos, pos + w.length + 4⟩ :: scanFrom fuel tail (pos + w.length + 4)
    | none =>
      match cs with
      | [] => []
      | _ :: cs2 => scanFrom fuel cs2 (pos + 1)

/-- All token spans of a paragraph text, left to right:
`list(re.finditer(r'\{\{(\w+)\}\}', full_text))`. -/
def scan (s : List Char) : List Span :=
  scanFrom s.length s 0

/-- A record: one spreadsheet row as an ordered field-name/value mapping
(`load_data` stringifies every cell, so values are strings). -/
abbrev Record := List (List Char × List Char)

/-- `data_row.get(field_name, "")`: the record's value for a field, or
the empty string when the record has no field of that name. -/
def lookupField (rc : Record) (k : List Char) : List Char :=
  match rc with
  | [] => []
  | (k2, v) :: rest => if k2 = k then v else lookupField rest k

/-- Reference substitution semantics, fuelled: walk the text left to
right; on a token, emit the record's value for the captured name and
continue after the token; otherwise keep the character unchanged. -/
def substSpecF (rc : Record) : Nat → List Char → List Char
  | 0, _ => []
  | fuel + 1, cs =>
    match matchTok cs with
    | some (w, tail) => lookupField rc w ++ substSpecF rc fuel tail
    | none =>
      match cs with
      | [] => []
      | c :: cs2 => c :: substSpecF rc fuel cs2

/-- The original text with every token span replaced by the record's
value for its field name (empty when absent) and no other character
altered. -/
def substSpec (rc : Record) (s : List Char) : List Char :=
  substSpecF rc s.length s

/-- The formatting attributes the code reads and writes on a run:
`run.bold`, `run.italic`, `run.underline`, `run.font.name`,
`run.font.size`, `run.font.color.rgb`.  Every attribute is optional;
`none` is python-docx's `None`, "inherit, do not override".  A font size
is an EMU count (`Length`, an `int` subclass), a color the RGB value of
the `RGBColor` hex string. -/
structure Formatting where
  bold : Option Bool
  italic : Option Bool
  underline : Option Bool
  font_name : Option String
  font_size : Option Nat
  font_color : Option Nat
deriving DecidableEq, Repr

/-- All attributes inherited: the direct formatting of a run freshly
created by `paragraph.add_run(text)`. -/
def unsetFormatting : Formatting :=
  ⟨none, none, none, none, none, none⟩

/-- A text run: its text and its direct formatting attributes. -/
structure Run where
  text : List Char
  fmt : Formatting
deriving DecidableEq, Repr

/-- `paragraph.add_run(text)`: a new run with no direct formatting. -/
def freshRun (t : List Char) : Run :=
  ⟨t, unsetFormatting⟩

/-- `run.clear()`: removes the run's content but keeps the run element,
with all its formatting, in the paragraph. -/
def clearRun (r : Run) : Run :=
  ⟨[], r.fmt⟩

/-- `''.join(run.text for run in runs)`: the flattened paragraph text. -/
def concatText (runs : List Run) : List Char :=
  runs.foldr (fun r acc => r.text ++ acc) []

/-- The six formatting attributes, in the order `_apply_formatting`
assigns them. -/
inductive FAttr
  | bold
  | italic
  | underline
  | fname
  | fsize
  | fcolor
deriving DecidableEq, Repr

/-- The assignment order of `_apply_formatting`. -/
def attrOrder : List FAttr :=
  [.bold, .italic, .underline, .fname, .fsize, .fcolor]

/-- The guard `_apply_formatting` places before each assignment:
`is not None` for the three boolean attributes, Python truthiness for
the three font attributes (`None`, `""` and `0` are falsy; an
`RGBColor` is a nonempty hex string, hence truthy whenever present). -/
def attrGuard (f : Formatting) : FAttr → Bool
  | .bold => f.bold.isSome
  | .italic => f.italic.isSome
  | .underline => f.underline.isSome
  | .fname => match f.font_name with
    | some s => s ≠ ""
    | none => false
  | .fsize => match f.font_size with
    | some n => n ≠ 0
    | none => false
  | .fcolor => f.font_color.isSome

/-- One attribute assignment of `_apply_formatting`, e.g.
`run.bold = formatting['bold']`. -/
def attrAssign (f : Formatting) : FAttr → Run → Run
  | .bold, r => ⟨r.text, { r.fmt with bold := f.bold }⟩
  | .italic, r => ⟨r.text, { r.fmt with italic := f.italic }⟩
  | .underline, r => ⟨r.text, { r.fmt with underline := f.underline }⟩
  | .fname, r => ⟨r.text, { r.fmt with font_name := f.font_name }⟩
  | .fsize, r => ⟨r.text, { r.fmt with font_size := f.font_size }⟩
  | .fcolor, r => ⟨r.text, { r.fmt with font_color := f.font_color }⟩

/-- A failure oracle for `_apply_formatting`: which attribute
assignments raise an exception when attempted. -/
structure FmtFail where
  bold : Bool
  italic : Bool
  underline : Bool
  fname : Bool
  fsize : Bool
  fcolor : Bool
deriving DecidableEq, Repr

/-- No assignment raises. -/
def noFail : FmtFail :=
  ⟨false, false, false, false, false, false⟩

/-- Whether the oracle makes a given assignment raise. -/
def attrFail (fl : FmtFail) : FAttr → Bool
  | .bold => fl.bold
  | .italic => fl.italic
  | .underline => fl.underline
  | .fname => fl.fname
  | .fsize => fl.fsize
  | .fcolor => fl.fcolor

/-- The body of `_apply_formatting`: the listed attribute assignments
run in order inside one `try` block.  A guard that fails skips its
assignment and moves on; an assignment that raises aborts the rest of
the `try` body, and the `except` swallows the exception, returning the
run as mutated so far. -/
def applySeq (fl : FmtFail) (f : Formatting) : List FAttr → Run → Run
  | [], r => r
  | a :: rest, r =>
    if attrGuard f a then
      if attrFail fl a then r
      else applySeq fl f rest (attrAssign f a r)
    else applySeq fl f rest r

/-- `_apply_formatting(run, formatting)` under a failure oracle. -/
def applyFormattingExc (fl : FmtFail) (f : Formatting) (r : Run) : Run :=
  applySeq fl f attrOrder r

/-- `_apply_formatting(run, formatting)` when no assignment raises. -/
def applyFormatting (f : Formatting) (r : Run) : Run :=
  applyFormattingExc noFail f r

/-- The walk of `_find_run_for_position`: accumulate run lengths until
the run whose half-open interval contains the position. -/
def findRunFmtAux : List Run → Nat → Option Formatting
  | [], _ => none
  | r :: rest, pos =>
    if pos < r.text.length then some r.fmt
    else findRunFmtAux rest (pos - r.text.length)

/-- `_find_run_for_position(paragraph, text_position)`: the formatting
of the run owning the position; if the position lies past every run,
fall back to the first run's formatting; `None` when the paragraph has
no runs. -/
def findRunFmt (runs : List Run) (pos : Nat) : Option Formatting :=
  match findRunFmtAux runs pos with
  | some f => some f
  | none =>
    match runs with
    | [] => none
    | r :: _ => some r.fmt

/-- One entry of `new_runs_data`: a text and the formatting to apply to
the run that will carry it (`None` when the paragraph had no runs). -/
structure Frag where
  text : List Char
  fmt : Option Formatting
deriving DecidableEq, Repr

/-- The fragment-building loop of `replace_merge_fields_advanced`: for
each span in order, emit the text between the previous position and the
span (if nonempty) with the formatting found at its start, then the
record's replacement value (if nonempty) with the formatting found at
the span's start; after the last span emit the remaining text the same
way.  `full` is the original flattened text, `runs` the original run
list, `cur` the loop's `current_pos`. -/
def buildFrags (runs : List Run) (full : List Char) (rc : Record) :
    List Span → Nat → List Frag
  | [], cur =>
    if cur < full.length then
      (fun t => if t ≠ [] then [⟨t, findRunFmt runs cur⟩] else [])
        (slice full cur full.length)
    else []
  | sp :: rest, cur =>
    (if sp.start > cur then
      (fun t => if t ≠ [] then [⟨t, findRunFmt runs cur⟩] else [])
        (slice full cur sp.start)
     else [])
    ++ (if lookupField rc sp.name ≠ [] then
          [⟨lookupField rc sp.name, findRunFmt runs sp.start⟩]
        else [])
    ++ buildFrags runs full rc rest sp.stop

/-- `paragraph.add_run(text)` followed by `_apply_formatting` when the
fragment carries a formatting, under a failure oracle. -/
def mkRunFromFragExc (fl : FmtFail) (fr : Frag) : Run :=
  match fr.fmt with
  | some f => applyFormattingExc fl f (freshRun fr.text)
  | none => freshRun fr.text

/-- The run created for a fragment when no assignment raises. -/
def mkRunFromFrag (fr : Frag) : Run :=
  mkRunFromFragExc noFail fr

/-- The final loop of `replace_merge_fields_advanced`: one new run per
fragment with nonempty text, in order. -/
def mkNewRuns : List Frag → List Run
  | [] => []
  | fr :: rest =>
    if fr.text ≠ [] then mkRunFromFrag fr :: mkNewRuns rest
    else mkNewRuns rest

/-- The same loop under a per-fragment failure oracle (`flFun i` is the
oracle for the i-th fragment of the built list). -/
def mkNewRunsExcFrom (flFun : Nat → FmtFail) : Nat → List Frag → List Run
  | _, [] => []
  | i, fr :: rest =>
    if fr.text ≠ [] then
      mkRunFromFragExc (flFun i) fr :: mkNewRunsExcFrom flFun (i + 1) rest
    else mkNewRunsExcFrom flFun (i + 1) rest

/-- `replace_merge_fields_advanced(paragraph, data_row)`, acting on the
paragraph's run list: scan the flattened text; if no token is found,
return unchanged; otherwise build the fragment list, clear every
existing run (the emptied run elements stay in the paragraph), and
append one new run per nonempty fragment. -/
def rebuildRuns (rc : Record) (runs : List Run) : List Run :=
  if (scan (concatText runs)).isEmpty then runs
  else
    runs.map clearRun
      ++ mkNewRuns (buildFrags runs (concatText runs) rc (scan (concatText runs)) 0)

/-- `replace_merge_fields_advanced` under a per-fragment failure
oracle for the `_apply_formatting` calls. -/
def rebuildRunsExc (flFun : Nat → FmtFail) (rc : Record)
    (runs : List Run) : List Run :=
  if (scan (concatText runs)).isEmpty then runs
  else
    runs.map clearRun
      ++ mkNewRunsExcFrom flFun 0
          (buildFrags runs (concatText runs) rc (scan (concatText runs)) 0)

/-- A paragraph: style reference, alignment, and its run list.
Hyperlink content, not part of the spec's template model, is not
modelled. -/
structure Para where
  style : Option String
  alignment : Option Nat
  runs : List Run
deriving DecidableEq, Repr

/-- The flattened text of a paragraph (`paragraph.text`). -/
def paraText (p : Para) : List Char :=
  concatText p.runs

/-- A cell of a table nested inside another table's cell: python-docx
exposes its direct paragraphs; deeper nesting is not modelled. -/
structure Cell0 where
  paras : List Para
deriving DecidableEq, Repr

/-- A table nested inside a cell: its grid column count and its rows of
cells. -/
structure Table0 where
  cols : Nat
  rows : List (List Cell0)
deriving DecidableEq, Repr

/-- A cell of a top-level table: its direct paragraphs
(`cell.paragraphs`) and the tables nested inside it (`cell.tables`,
which `cell.paragraphs` does NOT descend into). -/
structure Cell where
  paras : List Para
  tables : List Table0
deriving DecidableEq, Repr

/-- A top-level table: grid column count (`len(table.columns)`) and rows
of cells. -/
structure Table where
  cols : Nat
  rows : List (List Cell)
deriving DecidableEq, Repr

/-- A body-level element as iterated by `document.element.body`: a
paragraph (`w:p`), a table (`w:tbl`), or a page separator produced by
the assembler (the `add_section(WD_SECTION_START.NEW_PAGE)` break of the
primary strategy, or the XML page-break paragraph of the fallback). -/
inductive Block
  | para (p : Para)
  | table (t : Table)
  | sep
deriving DecidableEq, Repr

/-- A document section's header and footer paragraph lists. -/
structure SectionHF where
  header : List Para
  footer : List Para
deriving DecidableEq, Repr

/-- A document: its body elements in order and its sections. -/
structure Doc where
  body : List Block
  sections : List SectionHF
deriving DecidableEq, Repr

/-- The pre-filter of `replace_merge_fields`:
`'{{' in paragraph.text and '}}' in paragraph.text`. -/
def hasBraces (s : List Char) : Bool :=
  hasSub ['{', '{'] s && hasSub ['}', '}'] s

/-- One paragraph step of `replace_merge_fields`: invoke
`replace_merge_fields_advanced` exactly when the pre-filter passes. -/
def mergePara (rc : Record) (p : Para) : Para :=
  if hasBraces (paraText p) then
    { p with runs := rebuildRuns rc p.runs }
  else p

/-- Cell traversal of `replace_merge_fields`: every direct paragraph of
the cell is processed; tables nested inside the cell are not visited
(`cell.paragraphs` does not contain their paragraphs and the code never
reads `cell.tables`). -/
def mergeCell (rc : Record) (c : Cell) : Cell :=
  ⟨c.paras.map (mergePara rc), c.tables⟩

/-- Table traversal of `replace_merge_fields`: every cell of every row. -/
def mergeTable (rc : Record) (t : Table) : Table :=
  ⟨t.cols, t.rows.map (fun row => row.map (mergeCell rc))⟩

/-- One body element under `replace_merge_fields`. -/
def mergeBlock (rc : Record) : Block → Block
  | .para p => .para (mergePara rc p)
  | .table t => .table (mergeTable rc t)
  | .sep => .sep

/-- Header/footer traversal of `replace_merge_fields`. -/
def mergeSection (rc : Record) (s : SectionHF) : SectionHF :=
  ⟨s.header.map (mergePara rc), s.footer.map (mergePara rc)⟩

/-- `replace_merge_fields(doc, data_row)`: body paragraphs, top-level
tables' cell paragraphs, and every section's header and footer
paragraphs. -/
def mergeDoc (rc : Record) (d : Doc) : Doc :=
  ⟨d.body.map (mergeBlock rc), d.sections.map (mergeSection rc)⟩

/-- The run copy of `generate_single_word` (lines 341-358): copy text,
then bold/italic/underline when not `None` and font size/name/color when
truthy.  A present boolean is copied as-is; a present-but-falsy font
size or name (`0`, `""`) is skipped, leaving the fresh run's `None`; a
present color is always copied (`RGBColor` is truthy). -/
def copyRun (r : Run) : Run :=
  ⟨r.text,
    { bold := r.fmt.bold
      italic := r.fmt.italic
      underline := r.fmt.underline
      font_name := match r.fmt.font_name with
        | some s => if s ≠ "" then some s else none
        | none => none
      font_size := match r.fmt.font_size with
        | some n => if n ≠ 0 then some n else none
        | none => none
      font_color := r.fmt.font_color }⟩

/-- The paragraph copy of the primary COMBINED strategy: new paragraph,
style and alignment copied, every run copied via `copyRun`. -/
def copyPara (p : Para) : Para :=
  ⟨p.style, p.alignment, p.runs.map copyRun⟩

/-- The guard `para.text.strip() or len(para.runs) > 0` on a cell
paragraph during the table copy. -/
def keepPara (p : Para) : Bool :=
  (paraText p).any (fun c => !c.isWhitespace) || p.runs.length > 0

/-- The single empty paragraph left in a fresh cell by
`new_cell.text = ""`. -/
def emptyPara : Para :=
  ⟨none, none, []⟩

/-- The cell-content copy of the primary table copy: the cell is first
emptied to one default paragraph; a kept source paragraph at index 0
reuses (and fills) that paragraph, kept paragraphs at later indices are
appended; skipped paragraphs leave nothing — so when the first source
paragraph is skipped but a later one is kept, the initial empty
paragraph remains in front. -/
def copyCellContents (paras : List Para) : List Para :=
  match paras with
  | [] => [emptyPara]
  | p0 :: rest =>
    let copies := (rest.filter keepPara).map copyPara
    if keepPara p0 then copyPara p0 :: copies else emptyPara :: copies

/-- The table copy of the primary COMBINED strategy (lines 362-519):
`add_table(rows=len(table.rows), cols=len(table.columns))`, then cell by
cell the paragraph contents.  Nested tables inside cells are not copied
(`cell.paragraphs` does not reach them); XML-level shading, borders and
widths are outside the model. -/
def copyTable (t : Table) : Table :=
  ⟨t.cols,
    t.rows.map (fun row => row.map (fun c => ⟨copyCellContents c.paras, []⟩))⟩

/-- One body element of a processed document appended into the growing
COMBINED document: paragraphs and tables are copied element by element
in body order; any other body element (a section break's paragraph
properties) is skipped by the tag test. -/
def copyBlock : Block → Option Block
  | .para p => some (.para (copyPara p))
  | .table t => some (.table (copyTable t))
  | .sep => none

/-- The element-by-element append of one processed document's body. -/
def copyBlocks (bs : List Block) : List Block :=
  bs.filterMap copyBlock

/-- One iteration of the primary COMBINED loop: a NEW_PAGE section break
followed by the copied body of the freshly merged document. -/
def appendRecord (acc m : Doc) : Doc :=
  ⟨acc.body ++ Block.sep :: copyBlocks m.body, acc.sections⟩

/-- `generate_single_word`: merge the first record into a fresh template
copy, then for each later record merge a fresh template copy and append
it behind a page separator.  The code rejects an empty record list
before reaching this loop, so the `[]` case is unreachable. -/
def generateSingle (t : Doc) : List Record → Doc
  | [] => t
  | r0 :: rest =>
    rest.foldl (fun acc ri => appendRecord acc (mergeDoc ri t)) (mergeDoc r0 t)

/-- `generate_multiple_word`: one independent document per record, each
merged against a fresh template copy. -/
def generateMultiple (t : Doc) (rs : List Record) : List Doc :=
  rs.map (fun rc => mergeDoc rc t)

/-- The run copy of the fallback strategy (lines 583-593): text plus
bold/italic/underline only. -/
def copyRunFB (r : Run) : Run :=
  ⟨r.text,
    { unsetFormatting with
      bold := r.fmt.bold
      italic := r.fmt.italic
      underline := r.fmt.underline }⟩

/-- The paragraph copy of the fallback strategy. -/
def copyParaFB (p : Para) : Para :=
  ⟨p.style, p.alignment, p.runs.map copyRunFB⟩

/-- `'\n'.join(...)`: `cell.text`, the newline-joined flattened texts of
the cell's direct paragraphs. -/
def cellFlatText (c : Cell) : List Char :=
  match c.paras with
  | [] => []
  | p :: rest =>
    paraText p ++ rest.foldr (fun q acc => '\n' :: paraText q ++ acc) []

/-- The table copy of the fallback strategy (lines 596-600):
`add_table(rows=len(table.rows), cols=len(table.columns))`, each cell
set to the source cell's plain text (one paragraph of one fresh run). -/
def copyTableFB (t : Table) : Table :=
  ⟨t.cols,
    t.rows.map (fun row =>
      row.map (fun c => ⟨[⟨none, none, [freshRun (cellFlatText c)]⟩], []⟩))⟩

/-- One iteration of the fallback COMBINED loop: an XML page-break
paragraph, then all body paragraphs of the merged document, then all its
tables (the fallback loses paragraph/table interleaving). -/
def appendRecordFB (acc m : Doc) : Doc :=
  ⟨acc.body ++ Block.sep
      :: (m.body.filterMap (fun b => match b with
            | .para p => some (Block.para (copyParaFB p))
            | _ => none)
          ++ m.body.filterMap (fun b => match b with
            | .table tb => some (Block.table (copyTableFB tb))
            | _ => none)),
    acc.sections⟩

/-- `generate_single_word_fallback`: first record's merged document,
then each later record appended behind an XML page break. -/
def generateSingleFB (t : Doc) : List Record → Doc
  | [] => t
  | r0 :: rest =>
    rest.foldl (fun acc ri => appendRecordFB acc (mergeDoc ri t)) (mergeDoc r0 t)

/-- The paragraph of a body element, when it is one. -/
def blockPara : Block → Option Para
  | .para p => some p
  | _ => none

/-- The body paragraphs of a document (`doc.paragraphs`). -/
def bodyParas (d : Doc) : List Para :=
  d.body.filterMap blockPara

/-- The direct paragraphs of all cells of a row. -/
def rowParas (row : List Cell) : List Para :=
  row.foldr (fun c acc => c.paras ++ acc) []

/-- The direct cell paragraphs of a top-level table, in traversal order
of `replace_merge_fields`. -/
def tableParas (t : Table) : List Para :=
  t.rows.foldr (fun row acc => rowParas row ++ acc) []

/-- The direct cell paragraphs of the document's top-level tables. -/
def topCellParas (d : Doc) : List Para :=
  d.body.foldr (fun b acc => (match b with
    | .table t => tableParas t
    | _ => []) ++ acc) []

/-- The nested tables of all cells of a row. -/
def rowNested (row : List Cell) : List Table0 :=
  row.foldr (fun c acc => c.tables ++ acc) []

/-- The tables nested one level inside the cells of a table. -/
def tableNested (t : Table) : List Table0 :=
  t.rows.foldr (fun row acc => rowNested row ++ acc) []

/-- The tables nested one level inside cells of the document's top-level
tables. -/
def nestedTables (d : Doc) : List Table0 :=
  d.body.foldr (fun b acc => (match b with
    | .table t => tableNested t
    | _ => []) ++ acc) []

/-- All header paragraphs of all sections. -/
def headerParas (d : Doc) : List Para :=
  d.sections.foldr (fun s acc => s.header ++ acc) []

/-- All footer paragraphs of all sections. -/
def footerParas (d : Doc) : List Para :=
  d.sections.foldr (fun s acc => s.footer ++ acc) []

/-- The number of page separators in a body. -/
def sepCount (bs : List Block) : Nat :=
  bs.countP (fun b => b = Block.sep)

/-- The (row count, column count) shape of a nested table. -/
def shape0 (t : Table0) : Nat × Nat :=
  (t.rows.length, t.cols)

/-- The (row count, column count) shape of a top-level table. -/
def shape (t : Table) : Nat × Nat :=
  (t.rows.length, t.cols)

/-- The shapes of the tables nested in one row's cells. -/
def rowNestedShapes (row : List Cell) : List (Nat × Nat) :=
  row.foldr (fun c acc => c.tables.map shape0 ++ acc) []

/-- The shapes of the tables nested in a table's cells. -/
def tableNestedShapes (t : Table) : List (Nat × Nat) :=
  t.rows.foldr (fun row acc => rowNestedShapes row ++ acc) []

/-- The shapes contributed by one body element: a table's own shape
followed by its nested tables' shapes. -/
def blockShapes : Block → List (Nat × Nat)
  | .table t => shape t :: tableNestedShapes t
  | _ => []

/-- The shapes of a body's tables, top-level and nested. -/
def bodyShapes (bs : List Block) : List (Nat × Nat) :=
  bs.foldr (fun b acc => blockShapes b ++ acc) []

/-- The shapes of every table of a document. -/
def tableShapes (d : Doc) : List (Nat × Nat) :=
  bodyShapes d.body

/-- The shapes of the top-level tables of a body. -/
def topShapes (bs : List Block) : List (Nat × Nat) :=
  bs.filterMap (fun b => match b with
    | .table t => some (shape t)
    | _ => none)

/-- The block sequence the COMBINED loop appends after the first
record: for each later record, a page separator followed by the
element-by-element copy of that record's merged body. -/
def combinedTail (t : Doc) (rest : List Record) : List Block :=
  rest.foldr
    (fun ri acc => (Block.sep :: copyBlocks (mergeDoc ri t).body) ++ acc) []

/-- The block sequence the fallback COMBINED loop appends after the
first record. -/
def combinedTailFB (t : Doc) (rest : List Record) : List Block :=
  rest.foldr
    (fun ri acc =>
      (Block.sep
        :: ((mergeDoc ri t).body.filterMap (fun b => match b with
              | .para p => some (Block.para (copyParaFB p))
              | _ => none)
            ++ (mergeDoc ri t).body.filterMap (fun b => match b with
              | .table tb => some (Block.table (copyTableFB tb))
              | _ => none))) ++ acc) []

/-- Paragraph skeleton: everything but the run list. -/
def skelPara (p : Para) : Para :=
  ⟨p.style, p.alignment, []⟩

/-- Nested-cell skeleton. -/
def skelCell0 (c : Cell0) : Cell0 :=
  ⟨c.paras.map skelPara⟩

/-- Nested-table skeleton. -/
def skelTable0 (t : Table0) : Table0 :=
  ⟨t.cols, t.rows.map (fun r => r.map skelCell0)⟩

/-- Cell skeleton. -/
def skelCell (c : Cell) : Cell :=
  ⟨c.paras.map skelPara, c.tables.map skelTable0⟩

/-- Table skeleton. -/
def skelTable (t : Table) : Table :=
  ⟨t.cols, t.rows.map (fun r => r.map skelCell)⟩

/-- Body-element skeleton. -/
def skelBlock : Block → Block
  | .para p => .para (skelPara p)
  | .table t => .table (skelTable t)
  | .sep => .sep

/-- Section skeleton. -/
def skelSection (s : SectionHF) : SectionHF :=
  ⟨s.header.map skelPara, s.footer.map skelPara⟩

/-- The whole document with every run list erased: everything the merge
driver is not allowed to touch. -/
def docSkeleton (d : Doc) : Doc :=
  ⟨d.body.map skelBlock, d.sections.map skelSection⟩

/-- The embedding of one call `replace_merge_fields_advanced(paragraph,
data_row)` on the document's i-th body element (when it is a
paragraph): only that element is replaced. -/
def listModify {α : Type} (f : α → α) : Nat → List α → List α
  | _, [] => []
  | 0, a :: as => f a :: as
  | n + 1, a :: as => a :: listModify f n as

/-- Rebuild of a single body element, as `replace_merge_fields_advanced`
acts on one paragraph object. -/
def rebuildBlock (rc : Record) : Block → Block
  | .para p => .para ⟨p.style, p.alignment, rebuildRuns rc p.runs⟩
  | b => b

/-- Calling `replace_merge_fields_advanced` on body paragraph `i` only. -/
def rebuildBodyAt (rc : Record) (i : Nat) (d : Doc) : Doc :=
  ⟨listModify (rebuildBlock rc) i d.body, d.sections⟩

/-- Concatenated text of a fragment list. -/
def concatFragTexts (frags : List Frag) : List Char :=
  frags.foldr (fun fr acc => fr.text ++ acc) []

/-- Degenerate attribute values a real docx run never yields to the
reader (`font.name` reads `None` or a nonempty name; `font.size` reads
`None` or a positive length): with these excluded, the truthiness guards
of `_apply_formatting` coincide with presence. -/
def wfFmt (f : Formatting) : Bool :=
  !(f.font_name == some "") && !(f.font_size == some 0)

/-- The position in `attrOrder` of the first attribute whose guard
passes and whose assignment raises (its length when none does). -/
def firstFailIdx (fl : FmtFail) (f : Formatting) : Nat :=
  attrOrder.findIdx (fun a => attrGuard f a && attrFail fl a)

/-- The Formatting Resolver's result as `_apply_formatting` actually
lands it on a fresh run: bold, italic, underline and color pass through
unchanged (their guards are presence tests), while a font name or font
size whose stored value is falsy (`""`, `0`) is skipped by the
truthiness guard, leaving the fresh run's `None`. -/
def truthyFmt (f : Formatting) : Formatting :=
  ⟨f.bold, f.italic, f.underline,
    match f.font_name with
    | some s => if s ≠ "" then some s else none
    | none => none,
    match f.font_size with
    | some n => if n ≠ 0 then some n else none
    | none => none,
    f.font_color⟩

/-- A formatting whose only stored attribute is a font size of `0`
(schema-valid in a docx: `w:sz` with value 0). -/
def fszZero : Formatting :=
  ⟨none, none, none, none, some 0, none⟩

/-- Concrete paragraph run list `"{{n}} x"` whose single run stores
font size 0. -/
def c2cexRuns : List Run :=
  [⟨['{', '{', 'n', '}', '}', ' ', 'x'], fszZero⟩]

/-- A run formatting with only bold set. -/
def fmtBoldOnly : Formatting :=
  ⟨some true, none, none, none, none, none⟩

/-- Concrete paragraph run list `"{{n}} x"` with a bold run. -/
def c2runsW : List Run :=
  [⟨['{', '{', 'n', '}', '}', ' ', 'x'], fmtBoldOnly⟩]

/-- Concrete record mapping `n` to `Y`. -/
def c2rcW : Record :=
  [(['n'], ['Y'])]

/-- Concrete one-paragraph template `"Hi {{a}}"`. -/
def t3doc : Doc :=
  ⟨[Block.para ⟨none, none,
      [⟨['H', 'i', ' ', '{', '{', 'a', '}', '}'], unsetFormatting⟩]⟩], []⟩

/-- Concrete record mapping `a` to `1`. -/
def rc3a : Record :=
  [(['a'], ['1'])]

/-- Concrete record mapping `a` to `2`. -/
def rc3b : Record :=
  [(['a'], ['2'])]

/-- A paragraph whose flattened text is the token `"{{x}}"`. -/
def c4np : Para :=
  ⟨none, none, [⟨['{', '{', 'x', '}', '}'], unsetFormatting⟩]⟩

/-- A document whose single body table holds a nested table whose cell
contains the paragraph `"{{x}}"`. -/
def c4doc : Doc :=
  ⟨[Block.table ⟨1, [[⟨[], [⟨1, [[⟨[c4np]⟩]]⟩]⟩]]⟩], []⟩

/-- Concrete record mapping `x` to `1`. -/
def c4rc : Record :=
  [(['x'], ['1'])]

/-- Concrete paragraph run list `"a{{x}}"` with a bold run. -/
def c6runs : List Run :=
  [⟨['a', '{', '{', 'x', '}', '}'], fmtBoldOnly⟩]

/-- Concrete record mapping `x` to `b`. -/
def c6rc : Record :=
  [(['x'], ['b'])]

/-- Failure oracle making exactly the italic assignment raise. -/
def c7fail : FmtFail :=
  ⟨false, true, false, false, false, false⟩

/-- A formatting with bold, italic and underline all set. -/
def c7fmt : Formatting :=
  ⟨some true, some true, some true, none, none, none⟩

/-- A paragraph containing `{{` and `}}` but no well-formed token. -/
def c9para : Para :=
  ⟨none, none, [⟨['{', '{', ' ', '}', '}'], unsetFormatting⟩]⟩

/-- Concrete record mapping `x` to `1`. -/
def c9rc : Record :=
  [(['x'], ['1'])]

/-- A two-paragraph document: a token paragraph and a plain one. -/
def c10doc : Doc :=
  ⟨[Block.para ⟨none, none,
      [⟨['{', '{', 'a', '}', '}'], unsetFormatting⟩]⟩,
    Block.para ⟨none, none, [⟨['z'], unsetFormatting⟩]⟩], []⟩

/-- Concrete record mapping `a` to `1`. -/
def c10rc : Record :=
  [(['a'], ['1'])]

theorem takeWhile_all {p : Char → Bool} :
    ∀ l : List Char, (l.takeWhile p).all p = true := by
  intro l
  induction l with
  | nil => rfl
  | cons c cs ih =>
    by_cases h : p c
    · simp [List.takeWhile_cons, h, ih]
    · simp [List.takeWhile_cons, h]

theorem matchTok_decomp {cs w tail : List Char}
    (h : matchTok cs = some (w, tail)) :
    cs = '{' :: '{' :: (w ++ '}' :: '}' :: tail) ∧ w ≠ [] ∧
      w.all isWordChar = true := by
  unfold matchTok at h
  split at h
  next rest =>
    split at h
    · exact absurd h (by simp)
    next w0 ws tail2 heq1 heq2 =>
      injection h with h2
      injection h2 with hw ht
      subst hw
      subst ht
      have hsplit := @List.takeWhile_append_dropWhile _ isWordChar rest
      rw [heq1, heq2] at hsplit
      refine ⟨by rw [← hsplit], by simp, ?_⟩
      rw [← heq1]
      exact takeWhile_all rest
    · exact absurd h (by simp)
  next => exact absurd h (by simp)

theorem matchTok_length {cs w tail : List Char}
    (h : matchTok cs = some (w, tail)) :
    cs.length = w.length + 4 + tail.length := by
  obtain ⟨hdec, -, -⟩ := matchTok_decomp h
  rw [hdec]
  simp
  omega

theorem scanFrom_bounds :
    ∀ fuel (cs : List Char) (pos : Nat) (sp : Span),
      sp ∈ scanFrom fuel cs pos →
      pos ≤ sp.start ∧ sp.stop = sp.start + sp.name.length + 4 ∧
        sp.name ≠ [] ∧ sp.name.all isWordChar = true ∧
        sp.stop ≤ pos + cs.length := by
  intro fuel
  induction fuel with
  | zero => intro cs pos sp h; simp [scanFrom] at h
  | succ fuel ih =>
    intro cs pos sp h
    cases hm : matchTok cs with
    | some wt =>
      obtain ⟨w, tail⟩ := wt
      obtain ⟨-, hw, hall⟩ := matchTok_decomp hm
      have hlen := matchTok_length hm
      simp only [scanFrom, hm] at h
      rw [List.mem_cons] at h
      rcases h with h | h
      · subst h
        refine ⟨Nat.le_refl _, rfl, hw, hall, ?_⟩
        show pos + w.length + 4 ≤ pos + cs.length
        omega
      · obtain ⟨h1, h2, h3, h4, h5⟩ := ih tail (pos + w.length + 4) sp h
        exact ⟨by omega, h2, h3, h4, by omega⟩
    | none =>
      cases cs with
      | nil => simp [scanFrom, hm] at h
      | cons c cs2 =>
        simp only [scanFrom, hm] at h
        obtain ⟨h1, h2, h3, h4, h5⟩ := ih cs2 (pos + 1) sp h
        exact ⟨by omega, h2, h3, h4, by simp; omega⟩

theorem scanFrom_chain :
    ∀ fuel (cs : List Char) (pos : Nat),
      List.Chain' (fun a b => a.stop ≤ b.start) (scanFrom fuel cs pos) := by
  intro fuel
  induction fuel with
  | zero => intro cs pos; simp [scanFrom]
  | succ fuel ih =>
    intro cs pos
    cases hm : matchTok cs with
    | some wt =>
      obtain ⟨w, tail⟩ := wt
      simp only [scanFrom, hm]
      rw [List.chain'_cons']
      refine ⟨?_, ih tail (pos + w.length + 4)⟩
      intro b hb
      have hmem := List.mem_of_mem_head? hb
      exact (scanFrom_bounds fuel tail (pos + w.length + 4) b hmem).1
    | none =>
      cases cs with
      | nil => simp [scanFrom, hm]
      | cons c cs2 => simpa only [scanFrom, hm] using ih cs2 (pos + 1)

theorem drop_drop_one {α : Type} (l : List α) (n : Nat) :
    (l.drop n).drop 1 = l.drop (n + 1) := by
  rw [List.drop_drop]

theorem take_len_append {α : Type} (l1 l2 : List α) (n : Nat)
    (h : n = l1.length) : (l1 ++ l2).take n = l1 := by
  subst h
  exact List.take_left l1 l2

theorem drop_len_append {α : Type} (l1 l2 : List α) (n : Nat)
    (h : n = l1.length) : (l1 ++ l2).drop n = l2 := by
  subst h
  exact List.drop_left l1 l2

theorem matchTok_decompApp {cs w tail : List Char}
    (h : matchTok cs = some (w, tail)) :
    cs = ('{' :: '{' :: (w ++ ['}', '}'])) ++ tail := by
  obtain ⟨hdec, -, -⟩ := matchTok_decomp h
  rw [hdec]
  simp

theorem matchTok_tail_drop {full : List Char} {pos : Nat} {w tail : List Char}
    (h : matchTok (full.drop pos) = some (w, tail)) :
    tail = full.drop (pos + (w.length + 4)) := by
  have hdec := matchTok_decompApp h
  have h1 : (full.drop pos).drop (w.length + 4) = tail := by
    rw [hdec]
    exact drop_len_append _ _ _ (by simp)
  rw [← h1, List.drop_drop]

theorem scanFrom_slice :
    ∀ fuel (pos : Nat) (full : List Char) (sp : Span),
      sp ∈ scanFrom fuel (full.drop pos) pos →
      slice full sp.start sp.stop = '{' :: '{' :: (sp.name ++ ['}', '}']) := by
  intro fuel
  induction fuel with
  | zero => intro pos full sp h; simp [scanFrom] at h
  | succ fuel ih =>
    intro pos full sp h
    cases hm : matchTok (full.drop pos) with
    | some wt =>
      obtain ⟨w, tail⟩ := wt
      have hdec := matchTok_decompApp hm
      have htail := matchTok_tail_drop hm
      simp only [scanFrom, hm] at h
      rw [List.mem_cons] at h
      rcases h with h | h
      · subst h
        simp only [slice]
        have harith : pos + w.length + 4 - pos = w.length + 4 := by omega
        rw [harith, hdec]
        exact take_len_append _ _ _ (by simp)
      · have h2 : sp ∈ scanFrom fuel (full.drop (pos + (w.length + 4)))
            (pos + (w.length + 4)) := by
          rw [← htail]
          rw [show pos + (w.length + 4) = pos + w.length + 4 by omega]
          exact h
        exact ih (pos + (w.length + 4)) full sp h2
    | none =>
      cases hcs : full.drop pos with
      | nil =>
        rw [hcs] at hm h
        simp [scanFrom, hm] at h
      | cons c cs2 =>
        rw [hcs] at hm h
        simp only [scanFrom, hm] at h
        have hcs2 : cs2 = full.drop (pos + 1) := by
          rw [← drop_drop_one, hcs]
          rfl
        rw [hcs2] at h
        exact ih (pos + 1) full sp h

theorem concatFragTexts_nil : concatFragTexts [] = [] := rfl

theorem concatFragTexts_cons (fr : Frag) (l : List Frag) :
    concatFragTexts (fr :: l) = fr.text ++ concatFragTexts l := rfl

theorem chunkConcatSolo (t : List Char) (fm : Option Formatting) :
    concatFragTexts (if t ≠ [] then [⟨t, fm⟩] else []) = t := by
  by_cases h : t = []
  · simp [h, concatFragTexts_nil]
  · simp [h, concatFragTexts_cons, concatFragTexts_nil]

theorem chunkConcat (t : List Char) (fm : Option Formatting)
    (rest : List Frag) :
    concatFragTexts ((if t ≠ [] then [⟨t, fm⟩] else []) ++ rest)
      = t ++ concatFragTexts rest := by
  by_cases h : t = []
  · simp [h, concatFragTexts_nil]
  · simp [h, concatFragTexts_cons]

theorem slice_zero_of_le (full : List Char) (cur b : Nat) (h : b ≤ cur) :
    slice full cur b = [] := by
  simp only [slice]
  have : b - cur = 0 := by omega
  rw [this]
  exact List.take_zero _

theorem concatFragTexts_append (a b : List Frag) :
    concatFragTexts (a ++ b) = concatFragTexts a ++ concatFragTexts b := by
  induction a with
  | nil => rfl
  | cons fr l ih => simp [concatFragTexts_cons, ih]

theorem buildFrags_cons_concat (runs : List Run) (rc : Record)
    (full : List Char) (sp : Span) (rest : List Span) (cur : Nat) :
    concatFragTexts (buildFrags runs full rc (sp :: rest) cur)
      = slice full cur sp.start ++ lookupField rc sp.name
          ++ concatFragTexts (buildFrags runs full rc rest sp.stop) := by
  simp only [buildFrags]
  rw [concatFragTexts_append, concatFragTexts_append]
  have hA : concatFragTexts (if sp.start > cur then
      if slice full cur sp.start ≠ [] then
        [⟨slice full cur sp.start, findRunFmt runs cur⟩]
      else [] else []) = slice full cur sp.start := by
    by_cases h : sp.start > cur
    · rw [if_pos h]
      exact chunkConcatSolo _ _
    · rw [if_neg h]
      rw [slice_zero_of_le full cur sp.start (by omega)]
      rfl
  rw [hA, chunkConcatSolo]

theorem buildFrags_nil_concat (runs : List Run) (rc : Record)
    (full : List Char) (cur : Nat) :
    concatFragTexts (buildFrags runs full rc [] cur)
      = slice full cur full.length := by
  simp only [buildFrags]
  by_cases h : cur < full.length
  · rw [if_pos h]
    exact chunkConcatSolo _ _
  · rw [if_neg h]
    rw [slice_zero_of_le full cur full.length (by omega)]
    rfl

theorem slice_cons (full : List Char) (pos b : Nat)
    (hpos : pos < full.length) (hb : pos < b) :
    slice full pos b = full.get ⟨pos, hpos⟩ :: slice full (pos + 1) b := by
  simp only [slice]
  rw [List.drop_eq_getElem_cons hpos]
  have harith : b - pos = (b - (pos + 1)) + 1 := by omega
  rw [harith, List.take_succ_cons]
  rfl

theorem buildFrags_peel (runs : List Run) (rc : Record) (full : List Char)
    (spans : List Span) (pos : Nat) (hpos : pos < full.length)
    (hhead : ∀ sp, spans.head? = some sp → pos + 1 ≤ sp.start) :
    concatFragTexts (buildFrags runs full rc spans pos)
      = full.get ⟨pos, hpos⟩
          :: concatFragTexts (buildFrags runs full rc spans (pos + 1)) := by
  cases spans with
  | nil =>
    rw [buildFrags_nil_concat, buildFrags_nil_concat]
    exact slice_cons full pos full.length hpos hpos
  | cons sp rest =>
    have hsp : pos + 1 ≤ sp.start := hhead sp rfl
    rw [buildFrags_cons_concat, buildFrags_cons_concat]
    rw [slice_cons full pos sp.start hpos (by omega)]
    simp

theorem buildFrags_subst (runs : List Run) (rc : Record) (full : List Char) :
    ∀ fuel (pos : Nat), (full.drop pos).length ≤ fuel →
      concatFragTexts
          (buildFrags runs full rc (scanFrom fuel (full.drop pos) pos) pos)
        = substSpecF rc fuel (full.drop pos) := by
  intro fuel
  induction fuel with
  | zero =>
    intro pos hle
    have hnil : full.drop pos = [] :=
      List.eq_nil_of_length_eq_zero (Nat.le_zero.mp hle)
    rw [hnil]
    simp only [scanFrom, substSpecF]
    rw [buildFrags_nil_concat]
    have hge : full.length ≤ pos := by
      have := congrArg List.length hnil
      rw [List.length_drop] at this
      simp at this
      omega
    exact slice_zero_of_le full pos full.length hge
  | succ fuel ih =>
    intro pos hle
    cases hm : matchTok (full.drop pos) with
    | some wt =>
      obtain ⟨w, tail⟩ := wt
      have hlen := matchTok_length hm
      have hw : w ≠ [] := (matchTok_decomp hm).2.1
      have htail := matchTok_tail_drop hm
      simp only [scanFrom, hm, substSpecF]
      rw [buildFrags_cons_concat]
      dsimp only
      rw [slice_zero_of_le full pos pos le_rfl, List.nil_append]
      congr 1
      have hwpos : 1 ≤ w.length := by
        cases w with
        | nil => exact absurd rfl hw
        | cons a l => simp
      have hle2 : (full.drop (pos + (w.length + 4))).length ≤ fuel := by
        rw [← htail]
        omega
      have := ih (pos + (w.length + 4)) hle2
      rw [← htail] at this
      rw [show pos + (w.length + 4) = pos + w.length + 4 by omega] at this
      exact this
    | none =>
      cases hcs : full.drop pos with
      | nil =>
        rw [hcs] at hm
        simp only [scanFrom, hm, substSpecF]
        rw [buildFrags_nil_concat]
        have hge : full.length ≤ pos := by
          have := congrArg List.length hcs
          rw [List.length_drop] at this
          simp at this
          omega
        exact slice_zero_of_le full pos full.length hge
      | cons c cs2 =>
        rw [hcs] at hm
        have hcs2 : cs2 = full.drop (pos + 1) := by
          rw [← drop_drop_one, hcs]
          rfl
        have hpos : pos < full.length := by
          have := congrArg List.length hcs
          rw [List.length_drop] at this
          simp at this
          omega
        simp only [scanFrom, hm, substSpecF]
        have hbound : ∀ sp, (scanFrom fuel cs2 (pos + 1)).head? = some sp →
            pos + 1 ≤ sp.start := by
          intro sp hsp
          exact (scanFrom_bounds fuel cs2 (pos + 1) sp
            (List.mem_of_mem_head? hsp)).1
        rw [buildFrags_peel runs rc full _ pos hpos hbound]
        have hget : full.get ⟨pos, hpos⟩ = c := by
          have hdg := List.drop_eq_getElem_cons hpos
          rw [hcs] at hdg
          injection hdg with h1 h2
          exact h1.symm
        rw [hget]
        congr 1
        have hle2 : (full.drop (pos + 1)).length ≤ fuel := by
          have h1 := congrArg List.length hcs
          rw [List.length_drop] at h1
          rw [List.length_drop] at hle
          rw [List.length_drop]
          simp at h1
          omega
        have := ih (pos + 1) hle2
        rw [← hcs2] at this
        exact this

theorem scanFrom_nil_subst (rc : Record) :
    ∀ fuel (cs : List Char) (pos : Nat), cs.length ≤ fuel →
      scanFrom fuel cs pos = [] → substSpecF rc fuel cs = cs := by
  intro fuel
  induction fuel with
  | zero =>
    intro cs pos hle _
    have : cs = [] := List.eq_nil_of_length_eq_zero (Nat.le_zero.mp hle)
    rw [this]
    rfl
  | succ fuel ih =>
    intro cs pos hle h
    cases hm : matchTok cs with
    | some wt =>
      obtain ⟨w, tail⟩ := wt
      simp [scanFrom, hm] at h
    | none =>
      cases cs with
      | nil => simp [substSpecF, hm]
      | cons c cs2 =>
        simp only [scanFrom, hm] at h
        simp only [substSpecF, hm]
        congr 1
        refine ih cs2 (pos + 1) ?_ h
        simp at hle
        omega

theorem applySeq_text (fl : FmtFail) (f : Formatting) :
    ∀ (l : List FAttr) (r : Run), (applySeq fl f l r).text = r.text := by
  intro l
  induction l with
  | nil => intro r; rfl
  | cons a rest ih =>
    intro r
    simp only [applySeq]
    by_cases h1 : attrGuard f a
    · rw [if_pos h1]
      by_cases h2 : attrFail fl a
      · rw [if_pos h2]
      · rw [if_neg h2, ih]
        cases a <;> rfl
    · rw [if_neg h1, ih]

theorem mkRunFromFragExc_text (fl : FmtFail) (fr : Frag) :
    (mkRunFromFragExc fl fr).text = fr.text := by
  unfold mkRunFromFragExc
  cases fr.fmt with
  | none => rfl
  | some f => exact applySeq_text fl f attrOrder (freshRun fr.text)

theorem mkRunFromFrag_text (fr : Frag) :
    (mkRunFromFrag fr).text = fr.text :=
  mkRunFromFragExc_text noFail fr

theorem concatText_nil : concatText [] = [] := rfl

theorem concatText_cons (r : Run) (rs : List Run) :
    concatText (r :: rs) = r.text ++ concatText rs := rfl

theorem concatText_append (a b : List Run) :
    concatText (a ++ b) = concatText a ++ concatText b := by
  induction a with
  | nil => rfl
  | cons r rs ih => simp [concatText_cons, ih]

theorem concatText_map_clear (runs : List Run) :
    concatText (runs.map clearRun) = [] := by
  induction runs with
  | nil => rfl
  | cons r rs ih => simp [concatText_cons, clearRun, ih]

theorem mkNewRuns_concat (frags : List Frag) :
    concatText (mkNewRuns frags) = concatFragTexts frags := by
  induction frags with
  | nil => rfl
  | cons fr rest ih =>
    by_cases h : fr.text = []
    · simp [mkNewRuns, h, concatFragTexts_cons, ih]
    · simp [mkNewRuns, h, concatFragTexts_cons, concatText_cons,
        mkRunFromFrag_text, ih]

theorem rebuildRuns_concat (rc : Record) (runs : List Run) :
    concatText (rebuildRuns rc runs) = substSpec rc (concatText runs) := by
  by_cases h : (scan (concatText runs)).isEmpty
  · rw [rebuildRuns, if_pos h]
    have hnil : scan (concatText runs) = [] := by
      cases hs : scan (concatText runs) with
      | nil => rfl
      | cons a l => rw [hs] at h; simp [List.isEmpty] at h
    exact (scanFrom_nil_subst rc (concatText runs).length (concatText runs) 0
      le_rfl hnil).symm
  · rw [rebuildRuns, if_neg h]
    rw [concatText_append, concatText_map_clear, List.nil_append,
      mkNewRuns_concat]
    have := buildFrags_subst runs rc (concatText runs)
      (concatText runs).length 0 (by simp)
    simp only [List.drop_zero] at this
    exact this

theorem findRunFmtAux_mem :
    ∀ (runs : List Run) (pos : Nat) (f : Formatting),
      findRunFmtAux runs pos = some f → ∃ r ∈ runs, r.fmt = f := by
  intro runs
  induction runs with
  | nil => intro pos f h; simp [findRunFmtAux] at h
  | cons r rest ih =>
    intro pos f h
    simp only [findRunFmtAux] at h
    by_cases hlt : pos < r.text.length
    · rw [if_pos hlt] at h
      injection h with h
      exact ⟨r, List.mem_cons_self r rest, h⟩
    · rw [if_neg hlt] at h
      obtain ⟨r2, hr2, hf⟩ := ih (pos - r.text.length) f h
      exact ⟨r2, List.mem_cons_of_mem r hr2, hf⟩

theorem findRunFmt_mem {runs : List Run} {pos : Nat} {f : Formatting}
    (h : findRunFmt runs pos = some f) : ∃ r ∈ runs, r.fmt = f := by
  unfold findRunFmt at h
  cases haux : findRunFmtAux runs pos with
  | some g =>
    rw [haux] at h
    injection h with h
    exact h ▸ findRunFmtAux_mem runs pos g haux
  | none =>
    rw [haux] at h
    cases runs with
    | nil => exact absurd h (by simp)
    | cons r rest =>
      injection h with h
      exact ⟨r, List.mem_cons_self r rest, h⟩

theorem findRunFmt_isSome {runs : List Run} (pos : Nat) (h : runs ≠ []) :
    ∃ f, findRunFmt runs pos = some f := by
  unfold findRunFmt
  cases haux : findRunFmtAux runs pos with
  | some g => exact ⟨g, rfl⟩
  | none =>
    cases runs with
    | nil => exact absurd rfl h
    | cons r rest => exact ⟨r.fmt, rfl⟩

theorem applyFormatting_fresh_eq (f : Formatting) (t : List Char)
    (hf : wfFmt f = true) :
    applyFormatting f (freshRun t) = ⟨t, f⟩ := by
  obtain ⟨b, i, u, n, s, c⟩ := f
  cases b <;> cases i <;> cases u <;> cases n <;> cases s <;> cases c <;>
    simp_all [applyFormatting, applyFormattingExc, attrOrder, applySeq,
      attrGuard, attrAssign, attrFail, noFail, freshRun, unsetFormatting,
      wfFmt]

theorem attrGuard_truthy (f : Formatting) (a : FAttr) :
    attrGuard (truthyFmt f) a = attrGuard f a := by
  obtain ⟨b, i, u, n, s, c⟩ := f
  cases a with
  | bold => rfl
  | italic => rfl
  | underline => rfl
  | fcolor => rfl
  | fname =>
    cases n with
    | none => rfl
    | some sv =>
      by_cases h : sv = ""
      · simp [attrGuard, truthyFmt, h]
      · simp [attrGuard, truthyFmt, h]
  | fsize =>
    cases s with
    | none => rfl
    | some nv =>
      by_cases h : nv = 0
      · simp [attrGuard, truthyFmt, h]
      · simp [attrGuard, truthyFmt, h]

theorem attrAssign_truthy (f : Formatting) (a : FAttr) (r : Run)
    (h : attrGuard f a = true) :
    attrAssign (truthyFmt f) a r = attrAssign f a r := by
  obtain ⟨b, i, u, n, s, c⟩ := f
  cases a with
  | bold => rfl
  | italic => rfl
  | underline => rfl
  | fcolor => rfl
  | fname =>
    cases n with
    | none => rfl
    | some sv =>
      have hs : sv ≠ "" := by simpa [attrGuard] using h
      simp [attrAssign, truthyFmt, hs]
  | fsize =>
    cases s with
    | none => rfl
    | some nv =>
      have hn : nv ≠ 0 := by simpa [attrGuard] using h
      simp [attrAssign, truthyFmt, hn]

theorem applySeq_truthy (fl : FmtFail) (f : Formatting) :
    ∀ (l : List FAttr) (r : Run),
      applySeq fl (truthyFmt f) l r = applySeq fl f l r := by
  intro l
  induction l with
  | nil => intro r; rfl
  | cons a rest ih =>
    intro r
    simp only [applySeq, attrGuard_truthy]
    by_cases hg : attrGuard f a = true
    · rw [if_pos hg, if_pos hg]
      by_cases hf : attrFail fl a = true
      · rw [if_pos hf, if_pos hf]
      · rw [if_neg hf, if_neg hf, attrAssign_truthy f a r hg, ih]
    · rw [if_neg hg, if_neg hg]
      exact ih r

theorem wfFmt_truthy (f : Formatting) : wfFmt (truthyFmt f) = true := by
  obtain ⟨b, i, u, n, s, c⟩ := f
  cases n <;> cases s <;> simp [wfFmt, truthyFmt]

theorem applyFormatting_fresh_truthy (f : Formatting) (t : List Char) :
    applyFormatting f (freshRun t) = ⟨t, truthyFmt f⟩ := by
  have h1 : applyFormatting (truthyFmt f) (freshRun t)
      = applyFormatting f (freshRun t) :=
    applySeq_truthy noFail f attrOrder (freshRun t)
  rw [← h1]
  exact applyFormatting_fresh_eq (truthyFmt f) t (wfFmt_truthy f)

theorem truthyFmt_font_name {f : Formatting} (h : f.font_name ≠ some "") :
    (truthyFmt f).font_name = f.font_name := by
  obtain ⟨b, i, u, n, s, c⟩ := f
  cases n with
  | none => rfl
  | some sv =>
    have hs : sv ≠ "" := by
      intro he
      exact h (by simp [he])
    simp [truthyFmt, hs]

theorem truthyFmt_font_size {f : Formatting} (h : f.font_size ≠ some 0) :
    (truthyFmt f).font_size = f.font_size := by
  obtain ⟨b, i, u, n, s, c⟩ := f
  cases s with
  | none => rfl
  | some nv =>
    have hn : nv ≠ 0 := by
      intro he
      exact h (by simp [he])
    simp [truthyFmt, hn]

theorem buildFrags_rep_mem (runs : List Run) (full : List Char)
    (rc : Record) :
    ∀ (spans : List Span) (cur : Nat) (sp : Span), sp ∈ spans →
      lookupField rc sp.name ≠ [] →
      (⟨lookupField rc sp.name, findRunFmt runs sp.start⟩ : Frag)
        ∈ buildFrags runs full rc spans cur := by
  intro spans
  induction spans with
  | nil => intro cur sp h _; simp at h
  | cons sp0 rest ih =>
    intro cur sp hmem hne
    rw [List.mem_cons] at hmem
    simp only [buildFrags]
    rcases hmem with h | h
    · subst h
      apply List.mem_append_left
      apply List.mem_append_right
      rw [if_pos hne]
      exact List.mem_singleton_self _
    · exact List.mem_append_right _ (ih sp0.stop sp h hne)

theorem mkNewRuns_mem {frags : List Frag} {fr : Frag}
    (h : fr ∈ frags) (hne : fr.text ≠ []) :
    mkRunFromFrag fr ∈ mkNewRuns frags := by
  induction frags with
  | nil => simp at h
  | cons fr0 rest ih =>
    rw [List.mem_cons] at h
    rcases h with h | h
    · subst h
      simp only [mkNewRuns, if_pos hne]
      exact List.mem_cons_self _ _
    · by_cases h0 : fr0.text = []
      · simpa [mkNewRuns, h0] using ih h
      · simp only [mkNewRuns]
        rw [if_pos h0]
        exact List.mem_cons_of_mem _ (ih h)

theorem scan_mem_runs_ne_nil {runs : List Run} {sp : Span}
    (h : sp ∈ scan (concatText runs)) : runs ≠ [] := by
  intro hnil
  subst hnil
  simp [scan, concatText, scanFrom] at h

theorem scan_mem_not_isEmpty {s : List Char} {sp : Span}
    (h : sp ∈ scan s) : ¬(scan s).isEmpty := by
  cases hs : scan s with
  | nil => rw [hs] at h; simp at h
  | cons a l => simp [List.isEmpty]

theorem rebuildRuns_rep_mem {runs : List Run} {rc : Record} {sp : Span}
    (hsp : sp ∈ scan (concatText runs))
    (hne : lookupField rc sp.name ≠ []) :
    mkRunFromFrag ⟨lookupField rc sp.name, findRunFmt runs sp.start⟩
      ∈ rebuildRuns rc runs := by
  rw [rebuildRuns, if_neg (scan_mem_not_isEmpty hsp)]
  apply List.mem_append_right
  exact mkNewRuns_mem
    (buildFrags_rep_mem runs (concatText runs) rc _ 0 sp hsp hne) hne

theorem applySeq_take_findIdx (fl : FmtFail) (f : Formatting) :
    ∀ (l : List FAttr) (r : Run),
      applySeq fl f l r
        = applySeq noFail f
            (l.take (l.findIdx (fun a => attrGuard f a && attrFail fl a)))
            r := by
  intro l
  induction l with
  | nil => intro r; rfl
  | cons a rest ih =>
    intro r
    cases hg : attrGuard f a with
    | false =>
      have hidx : (a :: rest).findIdx
          (fun x => attrGuard f x && attrFail fl x)
          = rest.findIdx (fun x => attrGuard f x && attrFail fl x) + 1 := by
        simp [List.findIdx_cons, hg]
      rw [hidx, List.take_succ_cons]
      simp only [applySeq, hg, Bool.false_eq_true, if_false]
      exact ih r
    | true =>
      cases hfa : attrFail fl a with
      | true =>
        have hidx : (a :: rest).findIdx
            (fun x => attrGuard f x && attrFail fl x) = 0 := by
          simp [List.findIdx_cons, hg, hfa]
        rw [hidx, List.take_zero]
        simp [applySeq, hg, hfa]
      | false =>
        have hidx : (a :: rest).findIdx
            (fun x => attrGuard f x && attrFail fl x)
            = rest.findIdx (fun x => attrGuard f x && attrFail fl x) + 1 := by
          simp [List.findIdx_cons, hg, hfa]
        rw [hidx, List.take_succ_cons]
        have hnf : attrFail noFail a = false := by cases a <;> rfl
        simp only [applySeq, hg, hfa, hnf, Bool.false_eq_true, if_false,
          if_true]
        exact ih (attrAssign f a r)

theorem applyFormattingExc_prefix (fl : FmtFail) (f : Formatting) (r : Run) :
    applyFormattingExc fl f r
      = applySeq noFail f (attrOrder.take (firstFailIdx fl f)) r :=
  applySeq_take_findIdx fl f attrOrder r

theorem mkNewRunsExcFrom_texts (flFun : Nat → FmtFail) :
    ∀ (frags : List Frag) (i : Nat),
      (mkNewRunsExcFrom flFun i frags).map Run.text
        = (mkNewRuns frags).map Run.text := by
  intro frags
  induction frags with
  | nil => intro i; rfl
  | cons fr rest ih =>
    intro i
    by_cases h : fr.text = []
    · simp only [mkNewRunsExcFrom, mkNewRuns, h]
      simp only [ne_eq, not_true_eq_false, if_false]
      exact ih (i + 1)
    · simp only [mkNewRunsExcFrom, mkNewRuns]
      rw [if_pos h, if_pos h]
      simp only [List.map_cons]
      rw [mkRunFromFragExc_text, mkRunFromFrag_text, ih (i + 1)]

theorem rebuildRunsExc_texts (flFun : Nat → FmtFail) (rc : Record)
    (runs : List Run) :
    (rebuildRunsExc flFun rc runs).map Run.text
      = (rebuildRuns rc runs).map Run.text := by
  by_cases h : (scan (concatText runs)).isEmpty
  · rw [rebuildRunsExc, rebuildRuns, if_pos h, if_pos h]
  · rw [rebuildRunsExc, rebuildRuns, if_neg h, if_neg h]
    rw [List.map_append, List.map_append, mkNewRunsExcFrom_texts]

theorem mergePara_style (rc : Record) (p : Para) :
    (mergePara rc p).style = p.style := by
  unfold mergePara
  split <;> rfl

theorem mergePara_alignment (rc : Record) (p : Para) :
    (mergePara rc p).alignment = p.alignment := by
  unfold mergePara
  split <;> rfl

theorem mergePara_skel (rc : Record) (p : Para) :
    skelPara (mergePara rc p) = skelPara p := by
  unfold mergePara skelPara
  split <;> rfl

theorem filterMap_blockPara_merge (rc : Record) :
    ∀ bs : List Block,
      (bs.map (mergeBlock rc)).filterMap blockPara
        = (bs.filterMap blockPara).map (mergePara rc) := by
  intro bs
  induction bs with
  | nil => rfl
  | cons b rest ih =>
    cases b <;> simp [mergeBlock, blockPara, List.filterMap_cons, ih]

theorem bodyParas_merge (rc : Record) (d : Doc) :
    bodyParas (mergeDoc rc d) = (bodyParas d).map (mergePara rc) :=
  filterMap_blockPara_merge rc d.body

theorem rowParas_merge (rc : Record) :
    ∀ row : List Cell,
      rowParas (row.map (mergeCell rc)) = (rowParas row).map (mergePara rc) := by
  intro row
  induction row with
  | nil => rfl
  | cons c rest ih =>
    simp only [rowParas, List.map_cons, List.foldr_cons] at ih ⊢
    simp [mergeCell, ih]

theorem tableParas_merge (rc : Record) (t : Table) :
    tableParas (mergeTable rc t) = (tableParas t).map (mergePara rc) := by
  unfold tableParas mergeTable
  induction t.rows with
  | nil => rfl
  | cons row rest ih => simp [rowParas_merge, ih]

theorem topCellParas_merge (rc : Record) (d : Doc) :
    topCellParas (mergeDoc rc d) = (topCellParas d).map (mergePara rc) := by
  unfold topCellParas mergeDoc
  induction d.body with
  | nil => rfl
  | cons b rest ih =>
    cases b <;> simp [mergeBlock, tableParas_merge, ih]

theorem rowNested_merge (rc : Record) :
    ∀ row : List Cell, rowNested (row.map (mergeCell rc)) = rowNested row := by
  intro row
  induction row with
  | nil => rfl
  | cons c rest ih =>
    simp only [rowNested, List.map_cons, List.foldr_cons] at ih ⊢
    simp [mergeCell, ih]

theorem tableNested_merge (rc : Record) (t : Table) :
    tableNested (mergeTable rc t) = tableNested t := by
  unfold tableNested mergeTable
  induction t.rows with
  | nil => rfl
  | cons row rest ih => simp [rowNested_merge, ih]

theorem nestedTables_merge (rc : Record) (d : Doc) :
    nestedTables (mergeDoc rc d) = nestedTables d := by
  unfold nestedTables mergeDoc
  induction d.body with
  | nil => rfl
  | cons b rest ih =>
    cases b <;> simp [mergeBlock, tableNested_merge, ih]

theorem headerParas_merge (rc : Record) (d : Doc) :
    headerParas (mergeDoc rc d) = (headerParas d).map (mergePara rc) := by
  unfold headerParas mergeDoc
  induction d.sections with
  | nil => rfl
  | cons s rest ih => simp [mergeSection, ih]

theorem footerParas_merge (rc : Record) (d : Doc) :
    footerParas (mergeDoc rc d) = (footerParas d).map (mergePara rc) := by
  unfold footerParas mergeDoc
  induction d.sections with
  | nil => rfl
  | cons s rest ih => simp [mergeSection, ih]

theorem skelCell_merge (rc : Record) (c : Cell) :
    skelCell (mergeCell rc c) = skelCell c := by
  unfold skelCell mergeCell
  simp only [List.map_map]
  congr 1
  apply List.map_congr_left
  intro p _
  exact mergePara_skel rc p

theorem skelTable_merge (rc : Record) (t : Table) :
    skelTable (mergeTable rc t) = skelTable t := by
  unfold skelTable mergeTable
  simp only [List.map_map]
  congr 1
  apply List.map_congr_left
  intro row _
  simp only [Function.comp]
  rw [List.map_map]
  apply List.map_congr_left
  intro c _
  exact skelCell_merge rc c

theorem skelBlock_merge (rc : Record) (b : Block) :
    skelBlock (mergeBlock rc b) = skelBlock b := by
  cases b with
  | para p => simp [mergeBlock, skelBlock, mergePara_skel]
  | table t => simp [mergeBlock, skelBlock, skelTable_merge]
  | sep => rfl

theorem skelSection_merge (rc : Record) (s : SectionHF) :
    skelSection (mergeSection rc s) = skelSection s := by
  unfold skelSection mergeSection
  simp only [List.map_map]
  congr 1 <;>
    · apply List.map_congr_left
      intro p _
      exact mergePara_skel rc p

theorem docSkeleton_merge (rc : Record) (d : Doc) :
    docSkeleton (mergeDoc rc d) = docSkeleton d := by
  unfold docSkeleton mergeDoc
  simp only [List.map_map]
  congr 1
  · apply List.map_congr_left
    intro b _
    exact skelBlock_merge rc b
  · apply List.map_congr_left
    intro s _
    exact skelSection_merge rc s

theorem sepCount_append (a b : List Block) :
    sepCount (a ++ b) = sepCount a + sepCount b := by
  unfold sepCount
  exact List.countP_append _ _ _

theorem sepCount_cons (b : Block) (bs : List Block) :
    sepCount (b :: bs) = sepCount bs + (if b = Block.sep then 1 else 0) := by
  simp [sepCount, List.countP_cons]

theorem sepCount_copyBlocks (bs : List Block) :
    sepCount (copyBlocks bs) = 0 := by
  induction bs with
  | nil => rfl
  | cons b rest ih =>
    cases b with
    | para p =>
      show sepCount (Block.para (copyPara p) :: copyBlocks rest) = 0
      rw [sepCount_cons, ih]
      simp
    | table t =>
      show sepCount (Block.table (copyTable t) :: copyBlocks rest) = 0
      rw [sepCount_cons, ih]
      simp
    | sep =>
      show sepCount (copyBlocks rest) = 0
      exact ih

theorem sepCount_merge (rc : Record) (d : Doc) :
    sepCount (mergeDoc rc d).body = sepCount d.body := by
  show sepCount (d.body.map (mergeBlock rc)) = sepCount d.body
  induction d.body with
  | nil => rfl
  | cons b rest ih =>
    rw [List.map_cons, sepCount_cons, sepCount_cons, ih]
    congr 1
    cases b <;> simp [mergeBlock]

theorem sepCount_combinedTail (t : Doc) :
    ∀ rest : List Record, sepCount (combinedTail t rest) = rest.length := by
  intro rest
  induction rest with
  | nil => rfl
  | cons ri rest2 ih =>
    show sepCount ((Block.sep :: copyBlocks (mergeDoc ri t).body)
      ++ combinedTail t rest2) = rest2.length + 1
    rw [sepCount_append, ih]
    have h1 : sepCount (Block.sep :: copyBlocks (mergeDoc ri t).body)
        = 1 + sepCount (copyBlocks (mergeDoc ri t).body) := by
      simp [sepCount, List.countP_cons]
      omega
    rw [h1, sepCount_copyBlocks]
    omega

theorem generateSingle_foldl (t : Doc) :
    ∀ (rest : List Record) (acc : Doc),
      (rest.foldl (fun a ri => appendRecord a (mergeDoc ri t)) acc).body
        = acc.body ++ combinedTail t rest := by
  intro rest
  induction rest with
  | nil => intro acc; simp [combinedTail]
  | cons ri rest2 ih =>
    intro acc
    rw [List.foldl_cons, ih]
    show (appendRecord acc (mergeDoc ri t)).body ++ combinedTail t rest2
      = acc.body ++ ((Block.sep :: copyBlocks (mergeDoc ri t).body)
          ++ combinedTail t rest2)
    simp [appendRecord, List.append_assoc]

theorem generateSingle_body (t : Doc) (r0 : Record) (rest : List Record) :
    (generateSingle t (r0 :: rest)).body
      = (mergeDoc r0 t).body ++ combinedTail t rest := by
  show (rest.foldl (fun a ri => appendRecord a (mergeDoc ri t))
    (mergeDoc r0 t)).body = _
  exact generateSingle_foldl t rest (mergeDoc r0 t)

theorem generateSingleFB_foldl (t : Doc) :
    ∀ (rest : List Record) (acc : Doc),
      (rest.foldl (fun a ri => appendRecordFB a (mergeDoc ri t)) acc).body
        = acc.body ++ combinedTailFB t rest := by
  intro rest
  induction rest with
  | nil => intro acc; simp [combinedTailFB]
  | cons ri rest2 ih =>
    intro acc
    rw [List.foldl_cons, ih]
    simp [appendRecordFB, combinedTailFB, List.append_assoc]

theorem generateSingleFB_body (t : Doc) (r0 : Record) (rest : List Record) :
    (generateSingleFB t (r0 :: rest)).body
      = (mergeDoc r0 t).body ++ combinedTailFB t rest := by
  show (rest.foldl (fun a ri => appendRecordFB a (mergeDoc ri t))
    (mergeDoc r0 t)).body = _
  exact generateSingleFB_foldl t rest (mergeDoc r0 t)

theorem bodyShapes_append (a b : List Block) :
    bodyShapes (a ++ b) = bodyShapes a ++ bodyShapes b := by
  induction a with
  | nil => rfl
  | cons x rest ih =>
    show blockShapes x ++ bodyShapes (rest ++ b)
      = (blockShapes x ++ bodyShapes rest) ++ bodyShapes b
    rw [ih, List.append_assoc]

theorem rowNestedShapes_merge (rc : Record) :
    ∀ row : List Cell,
      rowNestedShapes (row.map (mergeCell rc)) = rowNestedShapes row := by
  intro row
  induction row with
  | nil => rfl
  | cons c rest ih =>
    simp only [rowNestedShapes, List.map_cons, List.foldr_cons] at ih ⊢
    simp [mergeCell, ih]

theorem tableNestedShapes_merge (rc : Record) (t : Table) :
    tableNestedShapes (mergeTable rc t) = tableNestedShapes t := by
  unfold tableNestedShapes mergeTable
  induction t.rows with
  | nil => rfl
  | cons row rest ih => simp [rowNestedShapes_merge, ih]

theorem shape_mergeTable (rc : Record) (t : Table) :
    shape (mergeTable rc t) = shape t := by
  simp [shape, mergeTable]

theorem blockShapes_merge (rc : Record) (b : Block) :
    blockShapes (mergeBlock rc b) = blockShapes b := by
  cases b with
  | para p => rfl
  | table t =>
    simp [mergeBlock, blockShapes, shape_mergeTable, tableNestedShapes_merge]
  | sep => rfl

theorem bodyShapes_merge (rc : Record) (d : Doc) :
    bodyShapes (mergeDoc rc d).body = bodyShapes d.body := by
  unfold mergeDoc
  induction d.body with
  | nil => rfl
  | cons b rest ih =>
    simp only [List.map_cons, bodyShapes, List.foldr_cons] at ih ⊢
    rw [blockShapes_merge]
    simp [ih]

theorem topShapes_merge (rc : Record) (d : Doc) :
    topShapes (mergeDoc rc d).body = topShapes d.body := by
  unfold mergeDoc topShapes
  induction d.body with
  | nil => rfl
  | cons b rest ih =>
    cases b <;>
      simp_all [mergeBlock, List.filterMap_cons, shape_mergeTable]

theorem shape_copyTable (t : Table) : shape (copyTable t) = shape t := by
  simp [shape, copyTable]

theorem shape_copyTableFB (t : Table) : shape (copyTableFB t) = shape t := by
  simp [shape, copyTableFB]

theorem tableNestedShapes_copyTable (t : Table) :
    tableNestedShapes (copyTable t) = [] := by
  unfold tableNestedShapes copyTable
  induction t.rows with
  | nil => rfl
  | cons row rest ih =>
    simp only [List.map_cons, List.foldr_cons]
    rw [ih]
    have : rowNestedShapes (row.map (fun c =>
        (⟨copyCellContents c.paras, []⟩ : Cell))) = [] := by
      induction row with
      | nil => rfl
      | cons c rest2 ih2 =>
        simp only [rowNestedShapes, List.map_cons, List.foldr_cons] at ih2 ⊢
        simp [ih2]
    simp [this]

theorem tableNestedShapes_copyTableFB (t : Table) :
    tableNestedShapes (copyTableFB t) = [] := by
  unfold tableNestedShapes copyTableFB
  induction t.rows with
  | nil => rfl
  | cons row rest ih =>
    simp only [List.map_cons, List.foldr_cons]
    rw [ih]
    have : rowNestedShapes (row.map (fun c =>
        (⟨[⟨none, none, [freshRun (cellFlatText c)]⟩], []⟩ : Cell))) = [] := by
      induction row with
      | nil => rfl
      | cons c rest2 ih2 =>
        simp only [rowNestedShapes, List.map_cons, List.foldr_cons] at ih2 ⊢
        simp [ih2]
    simp [this]

theorem bodyShapes_copyBlocks (bs : List Block) :
    bodyShapes (copyBlocks bs) = topShapes bs := by
  induction bs with
  | nil => rfl
  | cons b rest ih =>
    cases b with
    | para p =>
      simp_all [copyBlocks, copyBlock, List.filterMap_cons, bodyShapes,
        blockShapes, topShapes]
    | table t =>
      simp_all [copyBlocks, copyBlock, List.filterMap_cons, bodyShapes,
        blockShapes, topShapes, shape_copyTable, tableNestedShapes_copyTable]
    | sep =>
      simp_all [copyBlocks, copyBlock, List.filterMap_cons, bodyShapes,
        blockShapes, topShapes]

theorem topShapes_sub (bs : List Block) :
    ∀ x, x ∈ topShapes bs → x ∈ bodyShapes bs := by
  induction bs with
  | nil => intro x h; simp [topShapes] at h
  | cons b rest ih =>
    intro x h
    cases b with
    | para p =>
      simp only [topShapes, List.filterMap_cons] at h
      exact List.mem_append_right _ (ih x h)
    | table t =>
      simp only [topShapes, List.filterMap_cons] at h
      rw [List.mem_cons] at h
      show x ∈ (shape t :: tableNestedShapes t) ++ bodyShapes rest
      rcases h with h | h
      · exact List.mem_append_left _ (h ▸ List.mem_cons_self _ _)
      · exact List.mem_append_right _ (ih x h)
    | sep =>
      simp only [topShapes, List.filterMap_cons] at h
      exact List.mem_append_right _ (ih x h)

theorem mem_bodyShapes_combinedTail (t : Doc) :
    ∀ (rest : List Record) (x : Nat × Nat),
      x ∈ bodyShapes (combinedTail t rest) → x ∈ bodyShapes t.body := by
  intro rest
  induction rest with
  | nil => intro x h; simp [combinedTail, bodyShapes] at h
  | cons ri rest2 ih =>
    intro x h
    have hsplit : combinedTail t (ri :: rest2)
        = (Block.sep :: copyBlocks (mergeDoc ri t).body)
          ++ combinedTail t rest2 := rfl
    rw [hsplit, bodyShapes_append, List.mem_append] at h
    rcases h with h | h
    · have h2 : bodyShapes (Block.sep :: copyBlocks (mergeDoc ri t).body)
          = topShapes (mergeDoc ri t).body := by
        show blockShapes Block.sep ++ bodyShapes (copyBlocks _) = _
        rw [bodyShapes_copyBlocks]
        rfl
      rw [h2, topShapes_merge] at h
      exact topShapes_sub t.body x h
    · exact ih x h

theorem listModify_getElem_ne {α : Type} (f : α → α) :
    ∀ (l : List α) (i j : Nat), j ≠ i →
      (listModify f i l)[j]? = l[j]? := by
  intro l
  induction l with
  | nil => intro i j _; cases i <;> rfl
  | cons a as ih =>
    intro i j h
    cases i with
    | zero =>
      cases j with
      | zero => exact absurd rfl h
      | succ j2 => simp [listModify]
    | succ i2 =>
      cases j with
      | zero => simp [listModify]
      | succ j2 =>
        simp only [listModify, List.getElem?_cons_succ]
        exact ih i2 j2 (by omega)

theorem bodyShapes_cons (b : Block) (bs : List Block) :
    bodyShapes (b :: bs) = blockShapes b ++ bodyShapes bs := rfl

theorem bodyShapes_fbParas (bs : List Block) :
    bodyShapes (bs.filterMap (fun b => match b with
      | .para p => some (Block.para (copyParaFB p))
      | _ => none)) = [] := by
  induction bs with
  | nil => rfl
  | cons b rest ih =>
    cases b with
    | para p =>
      show bodyShapes (Block.para (copyParaFB p)
        :: rest.filterMap (fun b => match b with
          | .para p => some (Block.para (copyParaFB p))
          | _ => none)) = []
      rw [bodyShapes_cons, ih]
      rfl
    | table t => exact ih
    | sep => exact ih

theorem bodyShapes_fbTables (bs : List Block) :
    bodyShapes (bs.filterMap (fun b => match b with
      | .table tb => some (Block.table (copyTableFB tb))
      | _ => none)) = topShapes bs := by
  induction bs with
  | nil => rfl
  | cons b rest ih =>
    cases b with
    | para p =>
      show bodyShapes (rest.filterMap _) = topShapes (Block.para p :: rest)
      rw [ih]
      rfl
    | table t =>
      show bodyShapes (Block.table (copyTableFB t)
        :: rest.filterMap (fun b => match b with
          | .table tb => some (Block.table (copyTableFB tb))
          | _ => none)) = topShapes (Block.table t :: rest)
      rw [bodyShapes_cons, ih]
      show (shape (copyTableFB t) :: tableNestedShapes (copyTableFB t))
        ++ topShapes rest = shape t :: topShapes rest
      rw [shape_copyTableFB, tableNestedShapes_copyTableFB]
      rfl
    | sep =>
      show bodyShapes (rest.filterMap _) = topShapes (Block.sep :: rest)
      rw [ih]
      rfl

theorem mem_bodyShapes_combinedTailFB (t : Doc) :
    ∀ (rest : List Record) (x : Nat × Nat),
      x ∈ bodyShapes (combinedTailFB t rest) → x ∈ bodyShapes t.body := by
  intro rest
  induction rest with
  | nil => intro x h; simp [combinedTailFB, bodyShapes] at h
  | cons ri rest2 ih =>
    intro x h
    have hsplit : combinedTailFB t (ri :: rest2)
        = (Block.sep
            :: ((mergeDoc ri t).body.filterMap (fun b => match b with
                  | .para p => some (Block.para (copyParaFB p))
                  | _ => none)
                ++ (mergeDoc ri t).body.filterMap (fun b => match b with
                  | .table tb => some (Block.table (copyTableFB tb))
                  | _ => none)))
          ++ combinedTailFB t rest2 := rfl
    rw [hsplit, bodyShapes_append, List.mem_append] at h
    rcases h with h | h
    · rw [bodyShapes_cons, bodyShapes_append, bodyShapes_fbParas,
        bodyShapes_fbTables, topShapes_merge] at h
      simp only [List.nil_append] at h
      have h2 : x ∈ topShapes t.body := by
        show x ∈ topShapes t.body
        have : blockShapes Block.sep = [] := rfl
        rw [this, List.nil_append] at h
        exact h
      exact topShapes_sub t.body x h2
    · exact ih x h

theorem applySeq_unset_bold (fl : FmtFail) (f : Formatting)
    (h : f.bold = none) :
    ∀ (l : List FAttr) (r : Run),
      (applySeq fl f l r).fmt.bold = r.fmt.bold := by
  intro l
  induction l with
  | nil => intro r; rfl
  | cons a rest ih =>
    intro r
    simp only [applySeq]
    by_cases hg : attrGuard f a = true
    · rw [if_pos hg]
      by_cases hf : attrFail fl a = true
      · rw [if_pos hf]
      · rw [if_neg hf, ih]
        cases a with
        | bold => simp [attrGuard, h] at hg
        | italic => rfl
        | underline => rfl
        | fname => rfl
        | fsize => rfl
        | fcolor => rfl
    · rw [if_neg hg]
      exact ih r

theorem applySeq_unset_italic (fl : FmtFail) (f : Formatting)
    (h : f.italic = none) :
    ∀ (l : List FAttr) (r : Run),
      (applySeq fl f l r).fmt.italic = r.fmt.italic := by
  intro l
  induction l with
  | nil => intro r; rfl
  | cons a rest ih =>
    intro r
    simp only [applySeq]
    by_cases hg : attrGuard f a = true
    · rw [if_pos hg]
      by_cases hf : attrFail fl a = true
      · rw [if_pos hf]
      · rw [if_neg hf, ih]
        cases a with
        | italic => simp [attrGuard, h] at hg
        | bold => rfl
        | underline => rfl
        | fname => rfl
        | fsize => rfl
        | fcolor => rfl
    · rw [if_neg hg]
      exact ih r

theorem applySeq_unset_underline (fl : FmtFail) (f : Formatting)
    (h : f.underline = none) :
    ∀ (l : List FAttr) (r : Run),
      (applySeq fl f l r).fmt.underline = r.fmt.underline := by
  intro l
  induction l with
  | nil => intro r; rfl
  | cons a rest ih =>
    intro r
    simp only [applySeq]
    by_cases hg : attrGuard f a = true
    · rw [if_pos hg]
      by_cases hf : attrFail fl a = true
      · rw [if_pos hf]
      · rw [if_neg hf, ih]
        cases a with
        | underline => simp [attrGuard, h] at hg
        | bold => rfl
        | italic => rfl
        | fname => rfl
        | fsize => rfl
        | fcolor => rfl
    · rw [if_neg hg]
      exact ih r

theorem applySeq_unset_fname (fl : FmtFail) (f : Formatting)
    (h : f.font_name = none) :
    ∀ (l : List FAttr) (r : Run),
      (applySeq fl f l r).fmt.font_name = r.fmt.font_name := by
  intro l
  induction l with
  | nil => intro r; rfl
  | cons a rest ih =>
    intro r
    simp only [applySeq]
    by_cases hg : attrGuard f a = true
    · rw [if_pos hg]
      by_cases hf : attrFail fl a = true
      · rw [if_pos hf]
      · rw [if_neg hf, ih]
        cases a with
        | fname => simp [attrGuard, h] at hg
        | bold => rfl
        | italic => rfl
        | underline => rfl
        | fsize => rfl
        | fcolor => rfl
    · rw [if_neg hg]
      exact ih r

theorem applySeq_unset_fsize (fl : FmtFail) (f : Formatting)
    (h : f.font_size = none) :
    ∀ (l : List FAttr) (r : Run),
      (applySeq fl f l r).fmt.font_size = r.fmt.font_size := by
  intro l
  induction l with
  | nil => intro r; rfl
  | cons a rest ih =>
    intro r
    simp only [applySeq]
    by_cases hg : attrGuard f a = true
    · rw [if_pos hg]
      by_cases hf : attrFail fl a = true
      · rw [if_pos hf]
      · rw [if_neg hf, ih]
        cases a with
        | fsize => simp [attrGuard, h] at hg
        | bold => rfl
        | italic => rfl
        | underline => rfl
        | fname => rfl
        | fcolor => rfl
    · rw [if_neg hg]
      exact ih r

theorem applySeq_unset_fcolor (fl : FmtFail) (f : Formatting)
    (h : f.font_color = none) :
    ∀ (l : List FAttr) (r : Run),
      (applySeq fl f l r).fmt.font_color = r.fmt.font_color := by
  intro l
  induction l with
  | nil => intro r; rfl
  | cons a rest ih =>
    intro r
    simp only [applySeq]
    by_cases hg : attrGuard f a = true
    · rw [if_pos hg]
      by_cases hf : attrFail fl a = true
      · rw [if_pos hf]
      · rw [if_neg hf, ih]
        cases a with
        | fcolor => simp [attrGuard, h] at hg
        | bold => rfl
        | italic => rfl
        | underline => rfl
        | fname => rfl
        | fsize => rfl
    · rw [if_neg hg]
      exact ih r

theorem applyFormatting_unset (f : Formatting) (r : Run) :
    (f.bold = none → (applyFormatting f r).fmt.bold = r.fmt.bold) ∧
    (f.italic = none → (applyFormatting f r).fmt.italic = r.fmt.italic) ∧
    (f.underline = none →
      (applyFormatting f r).fmt.underline = r.fmt.underline) ∧
    (f.font_name = none →
      (applyFormatting f r).fmt.font_name = r.fmt.font_name) ∧
    (f.font_size = none →
      (applyFormatting f r).fmt.font_size = r.fmt.font_size) ∧
    (f.font_color = none →
      (applyFormatting f r).fmt.font_color = r.fmt.font_color) :=
  ⟨fun h => applySeq_unset_bold noFail f h attrOrder r,
   fun h => applySeq_unset_italic noFail f h attrOrder r,
   fun h => applySeq_unset_underline noFail f h attrOrder r,
   fun h => applySeq_unset_fname noFail f h attrOrder r,
   fun h => applySeq_unset_fsize noFail f h attrOrder r,
   fun h => applySeq_unset_fcolor noFail f h attrOrder r⟩

/-- C1: for every paragraph and every record, after
`replace_merge_fields_advanced` the concatenation of the paragraph's run
texts equals the original flattened text with each token span `{{name}}`
replaced by the record's value for `name` — the empty string when the
record has no field of that name, via the total lookup that never raises
— and with no other characters altered (`substSpec` walks the original
text and substitutes exactly the token occurrences). -/
theorem C1_text_correctness (rc : Record) (runs : List Run) :
    concatText (rebuildRuns rc runs) = substSpec rc (concatText runs) :=
  rebuildRuns_concat rc runs

/-- C2 counterexample: a run may store a falsy font attribute (here
font size 0, schema-valid in a docx); the Formatting Resolver returns it
at the token's start, but `_apply_formatting`'s truthiness guard
`if formatting.get('font_size'):` skips the assignment, so the run
created for the replacement value `Y` carries `font_size = None`, not
the resolver's `0` — it does not carry exactly the resolver's result. -/
theorem C2_counterexample :
    findRunFmt c2cexRuns 0 = some fszZero ∧
    fszZero.font_size = some 0 ∧
    (applyFormatting fszZero (freshRun ['Y'])).fmt.font_size = none ∧
    (rebuildRuns c2rcW c2cexRuns).map (fun r => (r.text, r.fmt.font_size))
      = [([], some 0), (['Y'], none), ([' ', 'x'], none)] := by decide

/-- C2 amended: for every paragraph, record and reported token span
whose replacement value is nonempty (only then is a run created), the
run the rebuild creates for the replacement is in the rebuilt run list,
carries the value as its text, and carries the Formatting Resolver's
result at the token's original start offset in the pre-rebuild
paragraph filtered through `_apply_formatting`'s truthiness guards:
bold, italic, underline and font color exactly as resolved, and font
name and font size exactly as resolved unless the stored value is falsy
(`""` or `0`), in which case that one attribute is skipped and left
unset on the new run. -/
theorem C2_replacement_formatting (runs : List Run) (rc : Record)
    (sp : Span) (hsp : sp ∈ scan (concatText runs))
    (hne : lookupField rc sp.name ≠ []) :
    ∃ f, findRunFmt runs sp.start = some f ∧
      applyFormatting f (freshRun (lookupField rc sp.name))
        ∈ rebuildRuns rc runs ∧
      (applyFormatting f (freshRun (lookupField rc sp.name))).text
        = lookupField rc sp.name ∧
      (applyFormatting f (freshRun (lookupField rc sp.name))).fmt
        = truthyFmt f ∧
      (truthyFmt f).bold = f.bold ∧
      (truthyFmt f).italic = f.italic ∧
      (truthyFmt f).underline = f.underline ∧
      (truthyFmt f).font_color = f.font_color ∧
      (f.font_name ≠ some "" → (truthyFmt f).font_name = f.font_name) ∧
      (f.font_size ≠ some 0 → (truthyFmt f).font_size = f.font_size) := by
  obtain ⟨f, hf⟩ := findRunFmt_isSome sp.start (scan_mem_runs_ne_nil hsp)
  have hmem := rebuildRuns_rep_mem hsp hne
  rw [hf] at hmem
  refine ⟨f, hf, hmem, ?_, ?_, rfl, rfl, rfl, rfl,
    truthyFmt_font_name, truthyFmt_font_size⟩
  · show (applySeq noFail f attrOrder
      (freshRun (lookupField rc sp.name))).text = lookupField rc sp.name
    rw [applySeq_text]
    rfl
  · rw [applyFormatting_fresh_truthy]

theorem C2_replacement_formatting_witness :
    ∃ f, findRunFmt c2runsW 0 = some f ∧
      applyFormatting f (freshRun (lookupField c2rcW ['n']))
        ∈ rebuildRuns c2rcW c2runsW ∧
      (applyFormatting f (freshRun (lookupField c2rcW ['n']))).text
        = lookupField c2rcW ['n'] ∧
      (applyFormatting f (freshRun (lookupField c2rcW ['n']))).fmt
        = truthyFmt f ∧
      (truthyFmt f).bold = f.bold ∧
      (truthyFmt f).italic = f.italic ∧
      (truthyFmt f).underline = f.underline ∧
      (truthyFmt f).font_color = f.font_color ∧
      (f.font_name ≠ some "" → (truthyFmt f).font_name = f.font_name) ∧
      (f.font_size ≠ some 0 → (truthyFmt f).font_size = f.font_size) :=
  C2_replacement_formatting c2runsW c2rcW ⟨['n'], 0, 5⟩ (by decide)
    (by decide)

/-- C3: SEPARATE mode on a non-empty record list `r0 :: rest` produces
exactly one document per record, the i-th being the merge of the i-th
record against a fresh template copy; COMBINED mode produces one
document whose body is the first record's merged body followed, for each
later record in order, by one page separator and the element-by-element
copy of that record's merged body — so, when the template itself
contains no separator, exactly N-1 separators in all. -/
theorem C3_assembly_counts (t : Doc) (r0 : Record) (rest : List Record)
    (hsep : sepCount t.body = 0) :
    (generateMultiple t (r0 :: rest)).length = (r0 :: rest).length ∧
    (∀ i, i < (r0 :: rest).length →
      (generateMultiple t (r0 :: rest))[i]?
        = ((r0 :: rest)[i]?).map (fun rc => mergeDoc rc t)) ∧
    (generateSingle t (r0 :: rest)).body
      = (mergeDoc r0 t).body ++ combinedTail t rest ∧
    sepCount (generateSingle t (r0 :: rest)).body
      = (r0 :: rest).length - 1 := by
  refine ⟨by simp [generateMultiple], ?_, generateSingle_body t r0 rest, ?_⟩
  · intro i _
    show (List.map (fun rc => mergeDoc rc t) (r0 :: rest))[i]? = _
    rw [List.getElem?_map]
  · rw [generateSingle_body, sepCount_append, sepCount_merge, hsep,
      sepCount_combinedTail]
    simp

theorem C3_assembly_counts_witness :
    sepCount (generateSingle t3doc [rc3a, rc3b]).body = 1 :=
  by
    have h := C3_assembly_counts t3doc rc3a [rc3b] (by decide)
    exact h.2.2.2

/-- C4 counterexample: on a document whose only content is a table
holding a nested table whose cell paragraph is `"{{x}}"`, the Document
Merge Driver leaves the whole document unchanged, although that
paragraph's flattened text contains `{{` and `}}` (so by the claim it
must not be skipped) and rebuilding it would substitute the token. -/
theorem C4_counterexample :
    mergeDoc c4rc c4doc = c4doc ∧
    hasBraces (paraText c4np) = true ∧
    mergePara c4rc c4np ≠ c4np := by decide

/-- C4 amended: for one record the driver applies the scanner and
rebuilder to every body paragraph, to every paragraph directly inside
every cell of every top-level table, and to every paragraph of every
section's header and footer; tables nested inside cells are left
untouched (the code never descends into `cell.tables`); a paragraph is
skipped exactly when its flattened text lacks a literal `{{` or a
literal `}}`. -/
theorem C4_driver_coverage (rc : Record) (d : Doc) :
    bodyParas (mergeDoc rc d) = (bodyParas d).map (mergePara rc) ∧
    topCellParas (mergeDoc rc d) = (topCellParas d).map (mergePara rc) ∧
    headerParas (mergeDoc rc d) = (headerParas d).map (mergePara rc) ∧
    footerParas (mergeDoc rc d) = (footerParas d).map (mergePara rc) ∧
    nestedTables (mergeDoc rc d) = nestedTables d ∧
    (∀ p : Para, hasBraces (paraText p) = false → mergePara rc p = p) ∧
    (∀ p : Para, hasBraces (paraText p) = true →
      mergePara rc p = ⟨p.style, p.alignment, rebuildRuns rc p.runs⟩) := by
  refine ⟨bodyParas_merge rc d, topCellParas_merge rc d,
    headerParas_merge rc d, footerParas_merge rc d,
    nestedTables_merge rc d, ?_, ?_⟩
  · intro p h
    unfold mergePara
    rw [h]
    simp
  · intro p h
    unfold mergePara
    rw [h]
    simp

theorem C4_driver_coverage_witness :
    mergePara c4rc ⟨none, none, [⟨['h', 'i'], unsetFormatting⟩]⟩
      = ⟨none, none, [⟨['h', 'i'], unsetFormatting⟩]⟩ :=
  (C4_driver_coverage c4rc c4doc).2.2.2.2.2.1
    ⟨none, none, [⟨['h', 'i'], unsetFormatting⟩]⟩ (by decide)

/-- C5 counterexample: Python's `\w` on a `str` is Unicode-aware, so the
scanner reports `{{é}}` as a token although `é` is not an ASCII word
character — the claim's "one or more ASCII word characters, and no other
substring is reported" fails. -/
theorem C5_counterexample :
    scan ['{', '{', 'é', '}', '}'] = [⟨['é'], 0, 5⟩] ∧
    (['é'].all specAsciiWordChar) = false := by decide

/-- C5 amended: for every paragraph text the scanner returns a finite,
non-overlapping sequence of token spans in left-to-right order, each
span covering exactly a literal `{{`, one or more word characters (per
the regex engine's Unicode-aware `\w`; on ASCII text exactly letters,
digits and underscore) captured as the field name, then a literal
`}}`. -/
theorem C5_scanner_tokens (s : List Char) :
    List.Chain' (fun a b => a.stop ≤ b.start) (scan s) ∧
    ∀ sp, sp ∈ scan s →
      sp.name ≠ [] ∧ sp.name.all isWordChar = true ∧
      sp.stop = sp.start + sp.name.length + 4 ∧
      sp.stop ≤ s.length ∧
      slice s sp.start sp.stop = '{' :: '{' :: (sp.name ++ ['}', '}']) := by
  constructor
  · exact scanFrom_chain s.length s 0
  · intro sp hsp
    obtain ⟨h1, h2, h3, h4, h5⟩ := scanFrom_bounds s.length s 0 sp hsp
    refine ⟨h3, h4, h2, by simpa using h5, ?_⟩
    exact scanFrom_slice s.length 0 s sp (by simpa using hsp)

theorem C5_scanner_tokens_witness :
    slice ['a', '{', '{', 'b', '}', '}'] 1 6
      = '{' :: '{' :: (['b'] ++ ['}', '}']) :=
  ((C5_scanner_tokens ['a', '{', '{', 'b', '}', '}']).2 ⟨['b'], 1, 6⟩
    (by decide)).2.2.2.2

/-- C6 counterexample: rebuilding the one-run paragraph `"a{{x}}"` with
`x = "b"` yields three runs — the cleared original (empty text, bold
kept) plus the two fragment runs — although there are only two non-empty
fragments; the original runs are emptied by `run.clear()`, not removed,
so the run list does not consist of exactly one run per fragment. -/
theorem C6_counterexample :
    (rebuildRuns c6rc c6runs).length = 3 ∧
    (rebuildRuns c6rc c6runs).map Run.text = [[], ['a'], ['b']] ∧
    ((buildFrags c6runs (concatText c6runs) c6rc
        (scan (concatText c6runs)) 0).filter
      (fun fr => fr.text ≠ [])).length = 2 := by decide

/-- C6 amended: for every paragraph containing at least one token span,
the rebuilt run list is the original runs emptied in place (text
cleared, formatting kept) followed by exactly one new run per non-empty
emitted fragment, in fragment order; a formatting attribute unset in a
fragment's resolved formatting is not assigned, leaving the new run's
inherited value untouched. -/
theorem C6_rebuild_runlist (rc : Record) (runs : List Run)
    (h : ¬(scan (concatText runs)).isEmpty) :
    rebuildRuns rc runs
      = runs.map clearRun
        ++ mkNewRuns (buildFrags runs (concatText runs) rc
            (scan (concatText runs)) 0) ∧
    (∀ r : Run, (clearRun r).text = [] ∧ (clearRun r).fmt = r.fmt) ∧
    (∀ (f : Formatting) (r : Run),
      (f.bold = none → (applyFormatting f r).fmt.bold = r.fmt.bold) ∧
      (f.italic = none → (applyFormatting f r).fmt.italic = r.fmt.italic) ∧
      (f.underline = none →
        (applyFormatting f r).fmt.underline = r.fmt.underline) ∧
      (f.font_name = none →
        (applyFormatting f r).fmt.font_name = r.fmt.font_name) ∧
      (f.font_size = none →
        (applyFormatting f r).fmt.font_size = r.fmt.font_size) ∧
      (f.font_color = none →
        (applyFormatting f r).fmt.font_color = r.fmt.font_color)) := by
  refine ⟨by rw [rebuildRuns, if_neg h], fun r => ⟨rfl, rfl⟩,
    applyFormatting_unset⟩

theorem C6_rebuild_runlist_witness :
    rebuildRuns c6rc c6runs
      = c6runs.map clearRun
        ++ mkNewRuns (buildFrags c6runs (concatText c6runs) c6rc
            (scan (concatText c6runs)) 0) :=
  (C6_rebuild_runlist c6rc c6runs (by decide)).1

/-- C7 counterexample: with bold, italic and underline all set and the
italic assignment raising, the produced run has bold applied but
underline not applied — the claim's "every other attribute of the same
fragment is still applied" fails for attributes after the failing one,
because the single `try` block of `_apply_formatting` is aborted. -/
theorem C7_counterexample :
    (applyFormattingExc c7fail c7fmt (freshRun ['x'])).fmt.underline
      = none ∧
    c7fmt.underline = some true ∧
    (applyFormatting c7fmt (freshRun ['x'])).fmt.underline = some true ∧
    (applyFormattingExc c7fail c7fmt (freshRun ['x'])).fmt.bold
      = some true := by decide

/-- C7 amended: if applying one formatting attribute of one fragment
fails, the attributes before it (in the fixed order bold, italic,
underline, font name, font size, font color) are applied and the failing
attribute together with all later ones is skipped; every fragment still
receives its text, all fragments of the paragraph are still substituted,
and the failure is never surfaced to the caller (the rebuild is total
and its run texts are unchanged under any failure oracle). -/
theorem C7_failure_containment :
    (∀ (flFun : Nat → FmtFail) (rc : Record) (runs : List Run),
      (rebuildRunsExc flFun rc runs).map Run.text
        = (rebuildRuns rc runs).map Run.text) ∧
    (∀ (fl : FmtFail) (f : Formatting) (r : Run),
      applyFormattingExc fl f r
        = applySeq noFail f (attrOrder.take (firstFailIdx fl f)) r) :=
  ⟨rebuildRunsExc_texts, applyFormattingExc_prefix⟩

/-- C8: table shape preservation — the merge driver preserves the (row
count, column count) shape of every table, top-level and nested; the
primary COMBINED copy and the reduced-fidelity fallback copy both build
tables of exactly the source's row and column counts; consequently every
document of SEPARATE mode has the template's table shapes, and every
table shape occurring in a COMBINED output (primary or fallback) is a
table shape of the template. -/
theorem C8_table_shapes :
    (∀ (rc : Record) (d : Doc), tableShapes (mergeDoc rc d) = tableShapes d) ∧
    (∀ t : Table, shape (copyTable t) = shape t) ∧
    (∀ t : Table, shape (copyTableFB t) = shape t) ∧
    (∀ (t : Doc) (rs : List Record) (d : Doc), d ∈ generateMultiple t rs →
      tableShapes d = tableShapes t) ∧
    (∀ (t : Doc) (r0 : Record) (rest : List Record) (x : Nat × Nat),
      x ∈ tableShapes (generateSingle t (r0 :: rest)) →
      x ∈ tableShapes t) ∧
    (∀ (t : Doc) (r0 : Record) (rest : List Record) (x : Nat × Nat),
      x ∈ tableShapes (generateSingleFB t (r0 :: rest)) →
      x ∈ tableShapes t) := by
  refine ⟨fun rc d => bodyShapes_merge rc d, shape_copyTable,
    shape_copyTableFB, ?_, ?_, ?_⟩
  · intro t rs d hd
    rw [generateMultiple, List.mem_map] at hd
    obtain ⟨rc, -, hrc⟩ := hd
    rw [← hrc]
    exact bodyShapes_merge rc t
  · intro t r0 rest x hx
    rw [tableShapes, generateSingle_body, bodyShapes_append,
      List.mem_append] at hx
    rcases hx with hx | hx
    · rw [bodyShapes_merge] at hx
      exact hx
    · exact mem_bodyShapes_combinedTail t rest x hx
  · intro t r0 rest x hx
    rw [tableShapes, generateSingleFB_body, bodyShapes_append,
      List.mem_append] at hx
    rcases hx with hx | hx
    · rw [bodyShapes_merge] at hx
      exact hx
    · exact mem_bodyShapes_combinedTailFB t rest x hx

theorem C8_table_shapes_witness :
    tableShapes (mergeDoc rc3a t3doc) = tableShapes t3doc :=
  C8_table_shapes.2.2.2.1 t3doc [rc3a] (mergeDoc rc3a t3doc)
    (List.mem_singleton_self _)

/-- C9: for every paragraph whose flattened text contains no `{{word}}`
token — including paragraphs that contain `{{` and `}}` with no
well-formed token between them — and for every record, the rebuild is a
no-op: the driver leaves the paragraph identical (style, alignment and
run list, attribute for attribute), and `replace_merge_fields_advanced`
returns the run list unchanged. -/
theorem C9_noop_rebuild (rc : Record) (p : Para)
    (h : scan (paraText p) = []) :
    mergePara rc p = p ∧ rebuildRuns rc p.runs = p.runs := by
  have h2 : rebuildRuns rc p.runs = p.runs := by
    rw [rebuildRuns, if_pos]
    show (scan (concatText p.runs)).isEmpty = true
    rw [show concatText p.runs = paraText p from rfl, h]
    rfl
  refine ⟨?_, h2⟩
  unfold mergePara
  by_cases hb : hasBraces (paraText p)
  · rw [if_pos hb, h2]
  · rw [if_neg hb]

theorem C9_noop_rebuild_witness :
    mergePara c9rc c9para = c9para :=
  (C9_noop_rebuild c9rc c9para (by decide)).1

/-- C10: frame property of the rebuild — rebuilding a paragraph touches
at most its run list: style and alignment are preserved; rebuilding body
element i leaves every other body element and every section (headers
and footers) unchanged; and a whole document merge leaves the document
skeleton (everything except run lists) identical. -/
theorem C10_rebuild_frame (rc : Record) :
    (∀ p : Para, (mergePara rc p).style = p.style ∧
      (mergePara rc p).alignment = p.alignment) ∧
    (∀ (d : Doc) (i j : Nat), j ≠ i →
      (rebuildBodyAt rc i d).body[j]? = d.body[j]?) ∧
    (∀ (d : Doc) (i : Nat), (rebuildBodyAt rc i d).sections = d.sections) ∧
    (∀ d : Doc, docSkeleton (mergeDoc rc d) = docSkeleton d) := by
  refine ⟨fun p => ⟨mergePara_style rc p, mergePara_alignment rc p⟩,
    ?_, fun d i => rfl, docSkeleton_merge rc⟩
  intro d i j h
  exact listModify_getElem_ne _ d.body i j h

theorem C10_rebuild_frame_witness :
    (rebuildBodyAt c10rc 0 c10doc).body[1]? = c10doc.body[1]? :=
  (C10_rebuild_frame c10rc).2.1 c10doc 0 1 (by decide)

end MailMerge
